import Mathlib

/-!
Verification of the move generator, NNUE accumulator maintenance, weight
permutation and the stdout FFI bridge of the flutter_pikafish engine core.

The C++ sources embedded here are `movegen.cpp`,
`nnue/nnue_feature_transformer.h`, `network.h` and `FlutterPikafish/ffi.cpp`.
Bitboards are modelled as `Nat` (the engine uses a 128-bit unsigned integer
with the 90 board squares in the low bits); machine integer lanes are
modelled as `Int` with explicit wrapping at the int16/int32 width.
Collaborator functions that live outside these four files (the attack
tables of `bitboard.h`, `Position` queries, the NNUE feature set) are
abstract parameters constrained only where the spec constrains them.
-/

namespace Pikafish

/-! # Definitions -/

/-! ## Bitboard primitives (`bitboard.h` interface used by the sources) -/

/-- Scan for the least significant set bit over at most `fuel` binary
digits. -/
def lsbFuel : Nat → Nat → Nat
  | 0, _ => 0
  | fuel + 1, n => if n ≤ 1 then 0 else if n % 2 = 1 then 0 else lsbFuel fuel (n / 2) + 1

/-- Index of the least significant set bit, as computed by `lsb`/`pop_lsb`
on the engine's 128-bit bitboards (so the scan width is 128); returns 0 on
input 0. -/
def lsb (n : Nat) : Nat := lsbFuel 128 n

/-- Set-bit indices of the low `fuel` binary digits of `n`, in increasing
order. -/
def bitIndicesFuel : Nat → Nat → List Nat
  | 0, _ => []
  | fuel + 1, n =>
    if n = 0 then []
    else (if n % 2 = 1 then [0] else []) ++ (bitIndicesFuel fuel (n / 2)).map (· + 1)

/-- The list of set-bit indices of a 128-bit bitboard in increasing order:
exactly the sequence of squares produced by repeated `pop_lsb` in a
`while (b)` loop over the engine's 128-bit bitboards. -/
def bitIndices (n : Nat) : List Nat := bitIndicesFuel 128 n

/-- `more_than_one(b)`: true iff at least two bits are set. -/
def more_than_one (b : Nat) : Bool := b &&& (b - 1) ≠ 0

/-! ## Move generator (`movegen.cpp`)

`Color`, `PieceType`, `GenType` and `Move` are the engine types from
`types.h` that `movegen.cpp` manipulates; the attack tables of
`bitboard.h` and the `Position` query interface are collaborators outside
the given sources, so they appear as abstract fields of `Env` and
`Position`. -/

inductive Color where
  | WHITE
  | BLACK
deriving DecidableEq, Repr, Fintype

/-- `~us` on colors. -/
def Color.opp : Color → Color
  | .WHITE => .BLACK
  | .BLACK => .WHITE

inductive PieceType where
  | ROOK
  | ADVISOR
  | CANNON
  | PAWN
  | KNIGHT
  | BISHOP
  | KING
deriving DecidableEq, Repr, Fintype

/-- The seven piece types in the order `ROOK .. KING` used by
`for (PieceType pt = ROOK; pt <= KING; ++pt)`. -/
def allPieceTypes : List PieceType :=
  [.ROOK, .ADVISOR, .CANNON, .PAWN, .KNIGHT, .BISHOP, .KING]

inductive GenType where
  | CAPTURES
  | QUIETS
  | EVASIONS
  | PSEUDO_LEGAL
  | LEGAL
deriving DecidableEq, Repr

/-- A move is the ordered pair (from-square, to-square), as packed by
`Move(from, to)`. -/
structure Move where
  fromSq : Nat
  toSq : Nat
deriving DecidableEq, Repr

/-- Abstract interface to the attack tables of `bitboard.h`. `attacks pt sq occ`
is `attacks_bb(pt, sq, occupied)`; `kingAttacks` is the occupancy-free
`attacks_bb<KING>`; `pawnAttacks`, `between` and `line` are
`pawn_attacks_bb`, `between_bb` and `line_bb`. -/
structure Env where
  attacks : PieceType → Nat → Nat → Nat
  pawnAttacks : Color → Nat → Nat
  kingAttacks : Nat → Nat
  between : Nat → Nat → Nat
  line : Nat → Nat → Nat

/-- Read-only `Position` query interface consumed by `movegen.cpp`:
per-(color, type) bitboards, side to move, checkers, king squares, the
piece type sitting on a square, and the legality predicate `pos.legal`. -/
structure Position where
  piecesCT : Color → PieceType → Nat
  sideToMove : Color
  checkersBB : Nat
  kingSquare : Color → Nat
  pieceTypeOn : Nat → PieceType
  legalMove : Move → Bool

/-- `pos.pieces(c)`: all pieces of one color. -/
def Position.piecesC (pos : Position) (c : Color) : Nat :=
  allPieceTypes.foldl (fun acc pt => acc ||| pos.piecesCT c pt) 0

/-- `pos.pieces()`: combined occupancy. -/
def Position.piecesAll (pos : Position) : Nat :=
  pos.piecesC .WHITE ||| pos.piecesC .BLACK

/-- `pos.pieces(pt)`: both colors of one piece type. -/
def Position.piecesT (pos : Position) (pt : PieceType) : Nat :=
  pos.piecesCT .WHITE pt ||| pos.piecesCT .BLACK pt

/-- Bitboard complement `~x`, over the engine's 128-bit bitboard width. -/
def bnot (x : Nat) : Nat := (2 ^ 128 - 1) ^^^ (x &&& (2 ^ 128 - 1))

/-- Cannon capture shape: cannon attacks (one screen) into opponent
pieces; generated unless the mode is `QUIETS`. -/
def cannonCaps (env : Env) (pos : Position) (us : Color) (ty : GenType)
    (fromSq : Nat) : Nat :=
  if ty ≠ .QUIETS then env.attacks .CANNON fromSq pos.piecesAll &&& pos.piecesC us.opp
  else 0

/-- Cannon quiet shape: rook-like attacks (no blocker) into empty squares;
generated unless the mode is `CAPTURES`. -/
def cannonQuiets (env : Env) (pos : Position) (ty : GenType) (fromSq : Nat) : Nat :=
  if ty ≠ .CAPTURES then env.attacks .ROOK fromSq pos.piecesAll &&& bnot pos.piecesAll
  else 0

/-- The destination bitboard `b` computed by `generate_moves<Us, Pt, Type>`
for one piece of type `Pt ≠ KING` standing on `from`. -/
def destBB (env : Env) (pos : Position) (us : Color) (pt : PieceType)
    (ty : GenType) (target : Nat) (fromSq : Nat) : Nat :=
  if pt ≠ .CANNON then
    (if pt ≠ .PAWN then env.attacks pt fromSq pos.piecesAll
     else env.pawnAttacks us fromSq) &&& target
  else
    if ty = .EVASIONS then (cannonCaps env pos us ty fromSq ||| cannonQuiets env pos ty fromSq) &&& target
    else cannonCaps env pos us ty fromSq ||| cannonQuiets env pos ty fromSq

/-- `generate_moves<Us, Pt, Type>(pos, moveList, target)` for `Pt ≠ KING`:
emits `Move(from, pop_lsb(b))` for every piece of `Us`/`Pt` in `pop_lsb`
order. -/
def generate_moves (env : Env) (pos : Position) (us : Color) (pt : PieceType)
    (ty : GenType) (target : Nat) : List Move :=
  (bitIndices (pos.piecesCT us pt)).flatMap fun fromSq =>
    (bitIndices (destBB env pos us pt ty target fromSq)).map (Move.mk fromSq)

/-- The non-king overload `generate_moves<Us, Type>`: `PAWN`, `BISHOP`,
`ADVISOR`, `KNIGHT`, `CANNON`, `ROOK` in that order. -/
def generate_moves_all (env : Env) (pos : Position) (us : Color)
    (ty : GenType) (target : Nat) : List Move :=
  generate_moves env pos us .PAWN ty target ++
  generate_moves env pos us .BISHOP ty target ++
  generate_moves env pos us .ADVISOR ty target ++
  generate_moves env pos us .KNIGHT ty target ++
  generate_moves env pos us .CANNON ty target ++
  generate_moves env pos us .ROOK ty target

/-- The mode-dependent target of `generate_all` (for
`Type ∈ {CAPTURES, QUIETS, PSEUDO_LEGAL}`). -/
def genTarget (pos : Position) (us : Color) (ty : GenType) : Nat :=
  if ty = .PSEUDO_LEGAL then bnot (pos.piecesC us)
  else if ty = .CAPTURES then pos.piecesC us.opp
  else bnot pos.piecesAll

/-- `generate_all<Us, Type>`: non-king moves against the mode target, then
king step moves (the sources only reach the king block with
`Type ≠ EVASIONS`). -/
def generate_all (env : Env) (pos : Position) (us : Color) (ty : GenType) :
    List Move :=
  let ksq := pos.kingSquare us
  let target := genTarget pos us ty
  generate_moves_all env pos us ty target ++
    (if ty ≠ .EVASIONS then
      (bitIndices (env.kingAttacks ksq &&& target)).map (Move.mk ksq)
     else [])

/-- `generate<Type>` for `Type ∈ {CAPTURES, QUIETS, PSEUDO_LEGAL}`. -/
def generate (env : Env) (pos : Position) (ty : GenType) : List Move :=
  generate_all env pos pos.sideToMove ty

/-- The king-evasion destinations of `generate<EVASIONS>` (single checker):
king attack pattern minus own pieces, and for a `ROOK`/`CANNON` checker
further intersected with `~line_bb(checksq, ksq) | pos.pieces(~us)`. -/
def evasionKingBB (env : Env) (pos : Position) (us : Color) (ksq checksq : Nat)
    (pt : PieceType) : Nat :=
  let b := env.kingAttacks ksq &&& bnot (pos.piecesC us)
  if pt = .ROOK ∨ pt = .CANNON then
    b &&& (bnot (env.line checksq ksq) ||| pos.piecesC us.opp)
  else b

/-- The hurdle-relocation moves of `generate<EVASIONS>` for a cannon
checker: move the single own screen piece off the checking line
(destination set depending on the screen piece's own type). -/
def evasionHurdleMoves (env : Env) (pos : Position) (us : Color)
    (ksq checksq : Nat) : List Move :=
  let hurdle := env.between ksq checksq &&& pos.piecesC us
  if hurdle ≠ 0 then
    let hurdleSq := lsb hurdle
    let pt := pos.pieceTypeOn hurdleSq
    let b :=
      if pt = .PAWN then
        env.pawnAttacks us hurdleSq &&& bnot (env.line checksq hurdleSq) &&&
          bnot (pos.piecesC us)
      else if pt = .CANNON then
        (env.attacks .ROOK hurdleSq pos.piecesAll &&&
            bnot (env.line checksq hurdleSq) &&& bnot pos.piecesAll) |||
          (env.attacks .CANNON hurdleSq pos.piecesAll &&& pos.piecesC us.opp)
      else
        env.attacks pt hurdleSq pos.piecesAll &&&
          bnot (env.line checksq hurdleSq) &&& bnot (pos.piecesC us)
    (bitIndices b).map (Move.mk hurdleSq)
  else []

/-- `generate<EVASIONS>`: pseudo-legal fallback on double check, otherwise
blocking/capturing moves against `between_bb(ksq, checksq) & ~own`, the
dedicated king moves, and for a cannon checker the hurdle relocations. -/
def generate_EVASIONS (env : Env) (pos : Position) : List Move :=
  if more_than_one pos.checkersBB then generate env pos .PSEUDO_LEGAL
  else
    let us := pos.sideToMove
    let ksq := pos.kingSquare us
    let checksq := lsb pos.checkersBB
    let pt := pos.pieceTypeOn checksq
    let target := env.between ksq checksq &&& bnot (pos.piecesC us)
    generate_moves_all env pos us .EVASIONS target ++
      (bitIndices (evasionKingBB env pos us ksq checksq pt)).map (Move.mk ksq) ++
      (if pt = .CANNON then evasionHurdleMoves env pos us ksq checksq else [])

/-- The compaction loop of `generate<LEGAL>` with an explicit iteration
bound; every iteration shrinks the unexamined segment by one element, so a
bound equal to the segment length is exact. -/
def legalFilterFuel (legal : Move → Bool) : Nat → List Move → List Move
  | 0, _ => []
  | _ + 1, [] => []
  | fuel + 1, m :: rest =>
    if legal m then m :: legalFilterFuel legal fuel rest
    else
      match rest with
      | [] => []
      | r :: rs =>
        legalFilterFuel legal fuel
          ((r :: rs).getLast (List.cons_ne_nil r rs) :: (r :: rs).dropLast)

/-- The in-place compaction loop of `generate<LEGAL>`: advance over legal
candidates; overwrite an illegal candidate with the last buffer element
and shrink. -/
def legalFilterLoop (legal : Move → Bool) (l : List Move) : List Move :=
  legalFilterFuel legal l.length l

/-- `generate<LEGAL>`: evasions when in check, else pseudo-legal, then the
compaction loop with `pos.legal`. -/
def generate_LEGAL (env : Env) (pos : Position) : List Move :=
  legalFilterLoop pos.legalMove
    (if pos.checkersBB ≠ 0 then generate_EVASIONS env pos
     else generate env pos .PSEUDO_LEGAL)

/-! ## Well-formedness and pointwise bitboard lemmas -/

/-- Well-formed board: every (color, type) bitboard lies within the 90
board squares, and the two colors occupy disjoint squares. -/
def WFBoard (pos : Position) : Prop :=
  (∀ c pt, pos.piecesCT c pt < 2 ^ 90) ∧
  pos.piecesC .WHITE &&& pos.piecesC .BLACK = 0

/-- Well-formed attack tables: all attack, between and line bitboards lie
within the 90 board squares. -/
def WFEnv (env : Env) : Prop :=
  (∀ pt sq occ, env.attacks pt sq occ < 2 ^ 90) ∧
  (∀ c sq, env.pawnAttacks c sq < 2 ^ 90) ∧
  (∀ sq, env.kingAttacks sq < 2 ^ 90) ∧
  (∀ a b, env.between a b < 2 ^ 90) ∧
  (∀ a b, env.line a b < 2 ^ 90)

/-! ## NNUE feature transformer (`nnue_feature_transformer.h`)

The accumulator lanes are `int16_t` and the PSQT lanes `int32_t`; both are
modelled as `Int` with explicit wrapping. The `FeatureSet` collaborator
(`make_index`, `append_changed_indices`, `refresh_cost`, `update_cost`,
`requires_refresh`) lives outside the given sources; `make_index` is an
abstract field (within one `update_accumulator` call the engine computes
one `(bucket, mirror)` pair from the final position and passes it to every
`make_index` call, so a fixed function of `(color, piece type, square)` is
exact), and the outputs of the other `FeatureSet` functions are abstract
per-record data. -/

/-- Two's-complement wrap-around at modulus `m` with half-range `h`. -/
def wrapC (m h x : Int) : Int := (x + h) % m - h

/-- `int16_t` wrap-around. -/
def wrap16 (x : Int) : Int := wrapC 65536 32768 x

/-- `int32_t` wrap-around. -/
def wrap32 (x : Int) : Int := wrapC 4294967296 2147483648 x

/-- The piece placement a record's accumulator has to describe: one
bitboard per (color, piece type), the NNUE view of the board. -/
def XBoard : Type := Color → PieceType → Nat

/-- Pairwise-disjoint, in-range placement (the bitboard invariant of the
`Position` collaborator). -/
def WFX (bd : XBoard) : Prop :=
  (∀ c pt, bd c pt < 2 ^ 90) ∧
  (∀ c pt c' pt', (c, pt) ≠ (c', pt') → bd c pt &&& bd c' pt' = 0)

/-- `pos.pieces(c)` over an `XBoard`. -/
def byColorOf (bd : XBoard) (c : Color) : Nat :=
  allPieceTypes.foldl (fun acc pt => acc ||| bd c pt) 0

/-- `pos.pieces(pt)` over an `XBoard`. -/
def byTypeOf (bd : XBoard) (pt : PieceType) : Nat :=
  bd .WHITE pt ||| bd .BLACK pt

/-- The 14 (color, piece type) pairs in the iteration order of
`update_accumulator_refresh`: colors outer, `ROOK .. KING` inner. -/
def colorTypePairs : List (Color × PieceType) :=
  [Color.WHITE, Color.BLACK].flatMap fun c => allPieceTypes.map fun pt => (c, pt)

/-- Concatenate a per-(color, piece type) square-index list over all pairs
in refresh iteration order. -/
def overPairs (g : Color → PieceType → List Nat) : List Nat :=
  colorTypePairs.flatMap fun p => g p.1 p.2

/-- Weight matrices and the feature encoding of one
`update_accumulator` call: `weights idx lane` is
`weights[idx * HalfDimensions + lane]`, `psqtWeights idx b` is
`psqtWeights[idx * PSQTBuckets + b]`, and `mkIdx c pt sq` is
`FeatureSet::make_index<Perspective>(sq, make_piece(c, pt), bucket, mirror)`
for the call's fixed perspective, bucket and mirror flag. -/
structure NNCtx where
  weights : Nat → Nat → Int
  psqtWeights : Nat → Nat → Int
  biases : Nat → Int
  mkIdx : Color → PieceType → Nat → Nat

/-- Modelled from the spec: the "exact feature set implied by this
record's board state" — one `make_index` feature per piece on the board
(the active-feature enumeration of the `FeatureSet` collaborator, which is
not among the given sources). -/
def featsL (ctx : NNCtx) (bd : XBoard) : List Nat :=
  overPairs fun c pt => (bitIndices (bd c pt)).map (ctx.mkIdx c pt)

/-- Sum of the weight columns of a feature list at one lane. -/
def sumW (g : Nat → Int) (l : List Nat) : Int := (l.map g).sum

/-- The reference value of an accumulator lane for a board: bias plus the
wrapped sum of the active features' weight columns. -/
def groundAcc (ctx : NNCtx) (bd : XBoard) (lane : Nat) : Int :=
  wrap16 (ctx.biases lane + sumW (fun idx => ctx.weights idx lane) (featsL ctx bd))

/-- The reference value of a PSQT accumulator bucket for a board. -/
def groundPsqt (ctx : NNCtx) (bd : XBoard) (b : Nat) : Int :=
  wrap32 (sumW (fun idx => ctx.psqtWeights idx b) (featsL ctx bd))

/-- The per-move delta application of `update_accumulator_incremental`
(scalar branch): copy the previous accumulator, subtract the removed
features' columns, add the added features' columns, lane by lane with
`int16_t` arithmetic. -/
def incStep (ctx : NNCtx) (accIn : Nat → Int) (removed added : List Nat) :
    Nat → Int :=
  if removed.isEmpty && added.isEmpty then accIn
  else fun lane =>
    added.foldl (fun v idx => wrap16 (v + ctx.weights idx lane))
      (removed.foldl (fun v idx => wrap16 (v - ctx.weights idx lane)) (accIn lane))

/-- The PSQT half of the per-move delta application (`int32_t`). -/
def incPsqtStep (ctx : NNCtx) (psqtIn : Nat → Int) (removed added : List Nat) :
    Nat → Int :=
  if removed.isEmpty && added.isEmpty then psqtIn
  else fun b =>
    added.foldl (fun v idx => wrap32 (v + ctx.psqtWeights idx b))
      (removed.foldl (fun v idx => wrap32 (v - ctx.psqtWeights idx b)) (psqtIn b))

/-- One `AccumulatorCaches::Cache` entry: accumulator, PSQT accumulator
and the bitboard snapshot it was computed from. -/
structure CacheEntry where
  accumulation : Nat → Int
  psqtAccumulation : Nat → Int
  byColorBB : Color → Nat
  byTypeBB : PieceType → Nat

/-- The removed-feature list of `update_accumulator_refresh`:
`oldBB & ~newBB` per (color, piece type), `oldBB` reconstructed as
`entry.byColorBB[c] & entry.byTypeBB[pt]`. -/
def refreshRemoved (ctx : NNCtx) (entry : CacheEntry) (bd : XBoard) : List Nat :=
  overPairs fun c pt =>
    (bitIndices (Nat.ldiff (entry.byColorBB c &&& entry.byTypeBB pt) (bd c pt))).map
      (ctx.mkIdx c pt)

/-- The added-feature list of `update_accumulator_refresh`:
`newBB & ~oldBB` per (color, piece type). -/
def refreshAdded (ctx : NNCtx) (entry : CacheEntry) (bd : XBoard) : List Nat :=
  overPairs fun c pt =>
    (bitIndices (Nat.ldiff (bd c pt) (entry.byColorBB c &&& entry.byTypeBB pt))).map
      (ctx.mkIdx c pt)

/-- `update_accumulator_refresh` (scalar branch): diff the cache entry's
snapshot against the board, apply the deltas to the entry in place, copy
the result into the record's accumulator, and store the board's bitboards
back into the entry. Returns the updated entry and the two accumulator
functions written into the record. -/
def update_accumulator_refresh (ctx : NNCtx) (entry : CacheEntry) (bd : XBoard) :
    CacheEntry × (Nat → Int) × (Nat → Int) :=
  let removed := refreshRemoved ctx entry bd
  let added := refreshAdded ctx entry bd
  let newAcc := fun lane =>
    added.foldl (fun v idx => wrap16 (v + ctx.weights idx lane))
      (removed.foldl (fun v idx => wrap16 (v - ctx.weights idx lane))
        (entry.accumulation lane))
  let newPsqt := fun b =>
    added.foldl (fun v idx => wrap32 (v + ctx.psqtWeights idx b))
      (removed.foldl (fun v idx => wrap32 (v - ctx.psqtWeights idx b))
        (entry.psqtAccumulation b))
  ({ accumulation := newAcc, psqtAccumulation := newPsqt,
     byColorBB := fun c => byColorOf bd c, byTypeBB := fun pt => byTypeOf bd pt },
   newAcc, newPsqt)

/-- One `StateInfo` history record as seen by the feature transformer:
the NNUE board placement, the `append_changed_indices` output for the move
leading to this record (`removedD`/`addedD`), the record's accumulator
state, and the `FeatureSet::requires_refresh` / `update_cost` values for
this record. -/
structure SRec where
  board : XBoard
  removedD : List Nat
  addedD : List Nat
  accumulation : Nat → Int
  psqtAccumulation : Nat → Int
  computed : Bool
  reqRefresh : Bool
  updCost : Nat

instance : Inhabited SRec :=
  ⟨{ board := fun _ _ => 0, removedD := [], addedD := [],
     accumulation := fun _ => 0, psqtAccumulation := fun _ => 0,
     computed := false, reqRefresh := false, updCost := 0 }⟩

/-- `try_find_computed_accumulator`: walk backward (list head is the
current record, tail its predecessors) while the record has a previous
record and is uncomputed, decrementing the gain; stop on a mandatory
refresh or an exhausted budget. Returns how many steps back the walk
stopped. -/
def try_find_computed_accumulator (gain : Int) : List SRec → Nat
  | [] => 0
  | [_] => 0
  | st :: r :: rest =>
    if st.computed then 0
    else if st.reqRefresh = true ∨ gain - (st.updCost + 1) < 0 then 0
    else try_find_computed_accumulator (gain - (st.updCost + 1)) (r :: rest) + 1

/-- The running budget of the backward walk after visiting `i` records. -/
def walkBudget (gain : Int) (chain : List SRec) (i : Nat) : Int :=
  gain - ((chain.take i).map (fun r => (r.updCost : Int) + 1)).sum

/-- One forward step of `update_accumulator_incremental`: compute the next
record's accumulator from its computed predecessor and mark it computed. -/
def applyInc (ctx : NNCtx) (pred cur : SRec) : SRec :=
  { cur with
    accumulation := incStep ctx pred.accumulation cur.removedD cur.addedD,
    psqtAccumulation := incPsqtStep ctx pred.psqtAccumulation cur.removedD cur.addedD,
    computed := true }

/-- `update_accumulator_incremental` starting from the computed record `k`
steps back: walk forward from it to the current record (list head),
applying the per-move delta at every step. -/
def update_accumulator_incremental (ctx : NNCtx) : Nat → List SRec → List SRec
  | 0, l => l
  | _ + 1, [] => []
  | k + 1, c :: rest =>
    let rest' := update_accumulator_incremental ctx k rest
    applyInc ctx (rest'.headD default) c :: rest'

/-- `update_accumulator`: no-op if the current record is computed;
otherwise find a usable ancestor and update incrementally from it, or fall
back to a cache refresh of the current record. `gain` is
`FeatureSet::refresh_cost(pos)`. -/
def update_accumulator (ctx : NNCtx) (gain : Int) (chain : List SRec)
    (entry : CacheEntry) : List SRec × CacheEntry :=
  match chain with
  | [] => ([], entry)
  | cur :: rest =>
    if cur.computed then (cur :: rest, entry)
    else
      let k := try_find_computed_accumulator gain (cur :: rest)
      if ((cur :: rest).getD k default).computed = true ∧ k ≠ 0 then
        (update_accumulator_incremental ctx k (cur :: rest), entry)
      else
        let r := update_accumulator_refresh ctx entry cur.board
        let acc2 := r.2.1
        let psqt2 := r.2.2
        ({ cur with accumulation := acc2, psqtAccumulation := psqt2, computed := true } :: rest, r.1)

/-- A record's accumulator reflects exactly the feature set implied by its
board state. -/
def reflects (ctx : NNCtx) (r : SRec) : Prop :=
  (∀ lane, r.accumulation lane = groundAcc ctx r.board lane) ∧
  (∀ b, r.psqtAccumulation b = groundPsqt ctx r.board b)

/-- The per-(record, perspective) invariant: a computed flag is true only
if the accumulator reflects the record's board state. -/
def chainInv (ctx : NNCtx) (chain : List SRec) : Prop :=
  ∀ r ∈ chain, r.computed = true → reflects ctx r

/-- The refresh-cache invariant: the entry's stored bitboard snapshot and
its accumulator were computed together from one well-formed placement. -/
def entryReflects (ctx : NNCtx) (entry : CacheEntry) (bd0 : XBoard) : Prop :=
  WFX bd0 ∧
  (∀ c, entry.byColorBB c = byColorOf bd0 c) ∧
  (∀ pt, entry.byTypeBB pt = byTypeOf bd0 pt) ∧
  (∀ lane, entry.accumulation lane = groundAcc ctx bd0 lane) ∧
  (∀ b, entry.psqtAccumulation b = groundPsqt ctx bd0 b)

/-- Modelled from the spec: correctness of the
`FeatureSet::append_changed_indices` output stored in each record (the
feature set of a record's board differs from its predecessor's by exactly
the added and removed features of the move — "for each piece that left the
board … for each piece that appeared"; the function itself is not among
the given sources). Stated per consecutive pair along the chain. -/
def validDeltas (ctx : NNCtx) : List SRec → Prop
  | a :: b :: rest =>
    ((featsL ctx b.board : Multiset Nat) + (a.addedD : Multiset Nat) =
      (featsL ctx a.board : Multiset Nat) + (a.removedD : Multiset Nat)) ∧
    validDeltas ctx (b :: rest)
  | _ => True

/-! ## Weight packing permutation and (de)serialization

`permute<BlockSize>` moves aligned 16-byte blocks of `int16_t` data, so in
value space it moves aligned 8-element blocks; data is modelled as a list
of lane values and the block size counted in values. The leb128 stream
codec lives in `nnue_common.h`, outside the given sources, so the streams
are modelled as the raw integer sequences it transports. -/

/-- `invert_permutation`: `inverse[order[i]] = i` over a zero-initialized
array. -/
def invert_permutation (order : List Nat) : List Nat :=
  (List.range order.length).foldl
    (fun inv i => inv.set (order.getD i 0) i)
    (List.replicate order.length 0)

/-- `PackusEpi16Order` in the AVX-512 configuration. -/
def PackusEpi16OrderAVX512 : List Nat := [0, 2, 4, 6, 1, 3, 5, 7]

/-- `PackusEpi16Order` in the AVX2 configuration. -/
def PackusEpi16OrderAVX2 : List Nat := [0, 2, 1, 3, 4, 6, 5, 7]

/-- `PackusEpi16Order` in the remaining (SSE2/NEON/scalar)
configurations. -/
def PackusEpi16OrderOther : List Nat := [0, 1, 2, 3, 4, 5, 6, 7]

/-- One `ProcessChunkSize` step of `permute`: rebuild the chunk as the
blocks selected by `order`. -/
def permuteChunk (bs : Nat) (order : List Nat) (chunk : List α) : List α :=
  order.flatMap fun o => (chunk.drop (o * bs)).take bs

/-- The chunk loop of `permute`, with an explicit iteration bound (each
step consumes a whole chunk, so a bound of the data length is enough). -/
def permuteFuel (bs : Nat) (order : List Nat) : Nat → List α → List α
  | 0, _ => []
  | fuel + 1, data =>
    if data.isEmpty then []
    else
      permuteChunk bs order (data.take (bs * order.length)) ++
        permuteFuel bs order fuel (data.drop (bs * order.length))

/-- `permute<BlockSize * value size>(data, order)`: permute aligned
blocks of `bs` values by `order`, chunk by chunk over the whole array. -/
def permute (bs : Nat) (order : List Nat) (data : List α) : List α :=
  permuteFuel bs order data.length data

/-- `scale_weights(true)`: double every lane, in `int16_t` arithmetic. -/
def scale_up (l : List Int) : List Int := l.map fun x => wrap16 (2 * x)

/-- `scale_weights(false)`: halve every lane (C++ integer division
truncates toward zero). -/
def scale_down (l : List Int) : List Int := l.map fun x => x.tdiv 2

/-- The in-memory `FeatureTransformer` parameter arrays. -/
structure FTParams where
  biases : List Int
  weights : List Int
  psqtWeights : List Int

/-- `FeatureTransformer::read_parameters`: read the three arrays, permute
biases and weights into packing order, scale by 2. -/
def read_parameters (order : List Nat) (sb sw sp : List Int) : FTParams :=
  { biases := scale_up (permute 8 order sb),
    weights := scale_up (permute 8 order sw),
    psqtWeights := sp }

/-- `FeatureTransformer::write_parameters`: unpermute and unscale, write
the three arrays, then re-permute and re-scale the in-memory state.
Returns the written streams and the in-memory state after the call. -/
def write_parameters (order invOrder : List Nat) (p : FTParams) :
    (List Int × List Int × List Int) × FTParams :=
  let outB := scale_down (permute 8 invOrder p.biases)
  let outW := scale_down (permute 8 invOrder p.weights)
  ((outB, outW, p.psqtWeights),
   { biases := scale_up (permute 8 order outB),
     weights := scale_up (permute 8 order outW),
     psqtWeights := p.psqtWeights })

/-! ## Host-process stdout bridge (`FlutterPikafish/ffi.cpp`) -/

/-- The sentinel `"quitok\n"` as bytes. -/
def QUITOK : List Nat := [113, 117, 105, 116, 111, 107, 10]

/-- The C string a byte buffer denotes: its bytes up to the first NUL.
`strcmp(a, b) == 0` iff the two C strings are equal. -/
def cString (l : List Nat) : List Nat := l.takeWhile fun b => b ≠ 0

/-- `pikafish_stdout_read`, given the outcome of
`read(PARENT_READ_FD, buffer, sizeof(buffer) - 1)`: `count` is the return
value and `data` the bytes placed in the buffer (`data.length = count`
when `count ≥ 0`), `buf` the previous contents of the static 80-byte
buffer. Returns `none` for `NULL`. -/
def pikafish_stdout_read (buf : List Nat) (count : Int) (data : List Nat) :
    Option (List Nat) :=
  if count < 0 then none
  else
    let buf2 := data.take count.toNat ++ [0] ++ buf.drop (count.toNat + 1)
    if cString buf2 = QUITOK then none else some buf2

/-! ## Definitions taken from the specification text (for comparison) and
concrete boards used in counterexamples and witnesses -/

/-- The king-evasion destination set described by the specification for a
sliding-line checker: the king's attack-pattern squares not occupied by
own pieces, excluding squares still aligned with the checker along the
line through checker and king, "except where the move itself captures the
checker" — i.e. the only aligned destination kept is the checker's own
square. Follows the spec's words, for comparison with `evasionKingBB`. -/
def claimKingEvasionBB (env : Env) (pos : Position) (us : Color)
    (ksq checksq : Nat) (pt : PieceType) : Nat :=
  let b := env.kingAttacks ksq &&& bnot (pos.piecesC us)
  if pt = .ROOK ∨ pt = .CANNON then
    b &&& (bnot (env.line checksq ksq) ||| (1 <<< checksq))
  else b

/-- Board geometry for the check-evasion counterexamples: squares are
`file + 9 * rank`, so 0, 9, 18, 27 are the first four squares of file a.
White king on 0; Black cannon on 27 gives check through a screen on 9. -/
def cEnv3 : Env :=
  { attacks := fun _ _ _ => 0
    pawnAttacks := fun _ _ => 0
    kingAttacks := fun sq => if sq = 0 then 2 ^ 1 + 2 ^ 9 else 0
    between := fun a b => if a = 0 ∧ b = 27 then 2 ^ 9 + 2 ^ 18 else 0
    line := fun a b => if a = 27 ∧ b = 0 then 1 + 2 ^ 9 + 2 ^ 18 + 2 ^ 27 else 0 }

/-- Check by the Black cannon on 27 with an *opponent* (Black) screen
pawn on 9, adjacent to the White king: capturing the screen is a real
evasion the generator keeps. -/
def cPos3 : Position :=
  { piecesCT := fun c pt =>
      match c, pt with
      | .WHITE, .KING => 1
      | .BLACK, .CANNON => 2 ^ 27
      | .BLACK, .PAWN => 2 ^ 9
      | .BLACK, .KING => 2 ^ 85
      | _, _ => 0
    sideToMove := .WHITE
    checkersBB := 2 ^ 27
    kingSquare := fun c => match c with | .WHITE => 0 | .BLACK => 85
    pieceTypeOn := fun sq => if sq = 27 then .CANNON else if sq = 9 then .PAWN else .ROOK
    legalMove := fun _ => true }

/-- Attack tables for the cannon-screen-relocation counterexample: the
knight on 9 attacks square 29, off the checking line. -/
def cEnv5 : Env :=
  { attacks := fun pt sq _ => if pt = .KNIGHT ∧ sq = 9 then 2 ^ 29 else 0
    pawnAttacks := fun _ _ => 0
    kingAttacks := fun sq => if sq = 0 then 2 ^ 1 + 2 ^ 9 else 0
    between := fun a b => if a = 0 ∧ b = 27 then 2 ^ 9 + 2 ^ 18 else 0
    line := fun a b =>
      if a = 27 ∧ (b = 0 ∨ b = 9) then 1 + 2 ^ 9 + 2 ^ 18 + 2 ^ 27 else 0 }

/-- Check by the Black cannon on 27 with an *own* (White) knight screen
on 9: `generate<EVASIONS>` additionally emits the screen relocation
9 → 29. -/
def cPos5 : Position :=
  { piecesCT := fun c pt =>
      match c, pt with
      | .WHITE, .KING => 1
      | .WHITE, .KNIGHT => 2 ^ 9
      | .BLACK, .CANNON => 2 ^ 27
      | .BLACK, .KING => 2 ^ 85
      | _, _ => 0
    sideToMove := .WHITE
    checkersBB := 2 ^ 27
    kingSquare := fun c => match c with | .WHITE => 0 | .BLACK => 85
    pieceTypeOn := fun sq => if sq = 27 then .CANNON else if sq = 9 then .KNIGHT else .ROOK
    legalMove := fun _ => true }

/-- Constant attack tables for witnesses: every attack set is a fixed
in-range bitboard. -/
def wEnv : Env :=
  { attacks := fun _ _ _ => 2 ^ 3
    pawnAttacks := fun _ _ => 2 ^ 4
    kingAttacks := fun _ => 2 ^ 5
    between := fun _ _ => 2 ^ 18
    line := fun _ _ => 0 }

/-- A small well-formed board for witnesses: White king 0, White rook 2,
White cannon 6, Black pawn 3, Black king 85. -/
def wPos : Position :=
  { piecesCT := fun c pt =>
      match c, pt with
      | .WHITE, .KING => 1
      | .WHITE, .ROOK => 2 ^ 2
      | .WHITE, .CANNON => 2 ^ 6
      | .BLACK, .PAWN => 2 ^ 3
      | .BLACK, .KING => 2 ^ 85
      | _, _ => 0
    sideToMove := .WHITE
    checkersBB := 0
    kingSquare := fun c => match c with | .WHITE => 0 | .BLACK => 85
    pieceTypeOn := fun _ => .ROOK
    legalMove := fun m => m.toSq ≠ 3 }

/-- A trivial weight context for the walk-budget counterexample. -/
def ctx0 : NNCtx :=
  { weights := fun _ _ => 0
    psqtWeights := fun _ _ => 0
    biases := fun _ => 0
    mkIdx := fun _ _ _ => 0 }

/-- A single uncomputed history record whose chain has no predecessor:
no mandatory refresh, cheap update, ample budget — yet the caller must
fall back to refresh. -/
def rec0 : SRec :=
  { board := fun c pt => match c, pt with | .WHITE, .KING => 1 | _, _ => 0
    removedD := []
    addedD := []
    accumulation := fun _ => 0
    psqtAccumulation := fun _ => 0
    computed := false
    reqRefresh := false
    updCost := 3 }

/-- An empty cache entry (snapshot: empty board). -/
def entry0 : CacheEntry :=
  { accumulation := fun _ => 0
    psqtAccumulation := fun _ => 0
    byColorBB := fun _ => 0
    byTypeBB := fun _ => 0 }

/-- Weight context for the accumulator witnesses. -/
def wCtx : NNCtx :=
  { weights := fun idx lane => (idx : Int) + lane
    psqtWeights := fun idx b => (idx : Int) * 2 + b
    biases := fun lane => (lane : Int) + 1
    mkIdx := fun _ _ sq => sq }

/-- Witness reference board: White king 0, Black king 85. -/
def wBd0 : XBoard := fun c pt =>
  match c, pt with
  | .WHITE, .KING => 1
  | .BLACK, .KING => 2 ^ 85
  | _, _ => 0

/-- A cache entry computed exactly from `wBd0`. -/
def wEntry : CacheEntry :=
  { accumulation := groundAcc wCtx wBd0
    psqtAccumulation := groundPsqt wCtx wBd0
    byColorBB := byColorOf wBd0
    byTypeBB := byTypeOf wBd0 }

/-- Witness ancestor record: computed, on `wBd0`, accumulator exactly the
reference value. -/
def wRec0 : SRec :=
  { board := wBd0
    removedD := []
    addedD := []
    accumulation := groundAcc wCtx wBd0
    psqtAccumulation := groundPsqt wCtx wBd0
    computed := true
    reqRefresh := false
    updCost := 1 }

/-- Witness current record: uncomputed successor of `wRec0` with an empty
move delta (same board). -/
def wRec1 : SRec :=
  { board := wBd0
    removedD := []
    addedD := []
    accumulation := fun _ => 0
    psqtAccumulation := fun _ => 0
    computed := false
    reqRefresh := false
    updCost := 1 }

/-! # Theorems -/

theorem mem_bitIndicesFuel {fuel n i : Nat} (hn : n < 2 ^ fuel) :
    i ∈ bitIndicesFuel fuel n ↔ n.testBit i := by
  induction fuel generalizing n i with
  | zero =>
    have : n = 0 := by simpa using hn
    simp [bitIndicesFuel, this]
  | succ fuel ih =>
    show i ∈ (if n = 0 then [] else _) ↔ _
    by_cases h0 : n = 0
    · simp [h0]
    · have hlt : n / 2 < 2 ^ fuel := by
        have : (2 : Nat) ^ (fuel + 1) = 2 * 2 ^ fuel := by ring
        omega
      simp only [h0, if_false, List.mem_append, List.mem_map]
      cases i with
      | zero =>
        rw [Nat.testBit_zero]
        constructor
        · rintro (hmem | ⟨a, _, ha⟩)
          · by_cases hpar : n % 2 = 1 <;> simp [hpar] at hmem ⊢
          · omega
        · intro hodd
          left
          simp [of_decide_eq_true hodd]
      | succ j =>
        rw [Nat.testBit_succ]
        constructor
        · rintro (hmem | ⟨a, hmem, ha⟩)
          · by_cases hpar : n % 2 = 1 <;> simp [hpar] at hmem
          · have hja : a = j := by omega
            exact hja ▸ (ih hlt).mp hmem
        · intro hbit
          right
          exact ⟨j, (ih hlt).mpr hbit, rfl⟩

theorem mem_bitIndices {n i : Nat} (hn : n < 2 ^ 128) :
    i ∈ bitIndices n ↔ n.testBit i :=
  mem_bitIndicesFuel hn

theorem bitIndicesFuel_nodup (fuel n : Nat) : (bitIndicesFuel fuel n).Nodup := by
  induction fuel generalizing n with
  | zero => simp [bitIndicesFuel]
  | succ fuel ih =>
    show (if n = 0 then [] else _).Nodup
    by_cases h0 : n = 0
    · simp [h0]
    · have hmap : ((bitIndicesFuel fuel (n / 2)).map (· + 1)).Nodup :=
        (ih (n / 2)).map (fun a b => by omega)
      by_cases hpar : n % 2 = 1 <;> simp [h0, hpar, hmap]

theorem bitIndices_nodup (n : Nat) : (bitIndices n).Nodup :=
  bitIndicesFuel_nodup 128 n

/-! ## Lemmas about the compaction loop of `generate<LEGAL>` -/

theorem legalFilterFuel_perm (legal : Move → Bool) :
    ∀ (fuel : Nat) (l : List Move), l.length ≤ fuel →
      (legalFilterFuel legal fuel l).Perm (l.filter legal) := by
  intro fuel
  induction fuel with
  | zero =>
    intro l hl
    have : l = [] := List.length_eq_zero.mp (by omega)
    simp [this, legalFilterFuel]
  | succ fuel ih =>
    intro l hl
    match l with
    | [] => simp [legalFilterFuel]
    | m :: rest =>
      by_cases hm : legal m
      · simpa [legalFilterFuel, hm] using
          (ih rest (by simpa using hl)).cons m
      · match rest with
        | [] => simp [legalFilterFuel, hm]
        | r :: rs =>
          have hne : r :: rs ≠ [] := List.cons_ne_nil r rs
          have hlen : ((r :: rs).getLast hne :: (r :: rs).dropLast).length ≤ fuel := by
            simp only [List.length_cons, List.length_dropLast] at hl ⊢
            omega
          have hperm :
              ((r :: rs).getLast hne :: (r :: rs).dropLast).Perm (r :: rs) := by
            have hsplit : (r :: rs).dropLast ++ [(r :: rs).getLast hne] = r :: rs :=
              List.dropLast_append_getLast hne
            have hx : ((r :: rs).getLast hne :: (r :: rs).dropLast).Perm
                ((r :: rs).dropLast ++ [(r :: rs).getLast hne]) :=
              (List.perm_append_singleton _ _).symm
            rw [hsplit] at hx
            exact hx
          have hrec := ih _ hlen
          have hfil : (((r :: rs).getLast hne :: (r :: rs).dropLast).filter legal).Perm
              ((m :: r :: rs).filter legal) := by
            have := hperm.filter legal
            simpa [hm] using this
          simpa [legalFilterFuel, hm] using hrec.trans hfil

theorem legalFilterLoop_perm (legal : Move → Bool) (l : List Move) :
    (legalFilterLoop legal l).Perm (l.filter legal) :=
  legalFilterFuel_perm legal l.length l le_rfl

theorem testBit_bnot (x i : Nat) :
    (bnot x).testBit i = (decide (i < 128) && !x.testBit i) := by
  simp only [bnot, Nat.testBit_xor, Nat.testBit_land, Nat.testBit_two_pow_sub_one]
  cases h : x.testBit i <;> cases h2 : decide (i < 128) <;> simp [h, h2]

theorem testBit_lt_128 {x i : Nat} (h : x < 2 ^ 90) (hb : x.testBit i = true) :
    i < 128 := by
  by_contra hge
  have h90 : (2 : Nat) ^ 90 ≤ 2 ^ i := Nat.pow_le_pow_right (by omega) (by omega)
  rw [Nat.testBit_lt_two_pow (lt_of_lt_of_le h h90)] at hb
  cases hb

theorem piecesC_eq (pos : Position) (c : Color) :
    pos.piecesC c =
      pos.piecesCT c .ROOK ||| pos.piecesCT c .ADVISOR ||| pos.piecesCT c .CANNON |||
      pos.piecesCT c .PAWN ||| pos.piecesCT c .KNIGHT ||| pos.piecesCT c .BISHOP |||
      pos.piecesCT c .KING := by
  simp [Position.piecesC, allPieceTypes]

theorem piecesC_lt (pos : Position) (h : ∀ c pt, pos.piecesCT c pt < 2 ^ 90)
    (c : Color) : pos.piecesC c < 2 ^ 90 := by
  rw [piecesC_eq]
  exact Nat.or_lt_two_pow (Nat.or_lt_two_pow (Nat.or_lt_two_pow (Nat.or_lt_two_pow
    (Nat.or_lt_two_pow (Nat.or_lt_two_pow (h c _) (h c _)) (h c _)) (h c _)) (h c _))
    (h c _)) (h c _)

theorem piecesAll_lt (pos : Position) (h : ∀ c pt, pos.piecesCT c pt < 2 ^ 90) :
    pos.piecesAll < 2 ^ 90 :=
  Nat.or_lt_two_pow (piecesC_lt pos h _) (piecesC_lt pos h _)

theorem testBit_opp_all {pos : Position} {us : Color} {i : Nat}
    (h : (pos.piecesC us.opp).testBit i = true) : pos.piecesAll.testBit i = true := by
  rw [Position.piecesAll, Nat.testBit_lor]
  cases us <;> simp [Color.opp] at h ⊢ <;> simp [h]

theorem testBit_own_opp {pos : Position} {us : Color} {i : Nat}
    (hd : pos.piecesC .WHITE &&& pos.piecesC .BLACK = 0)
    (ho : (pos.piecesC us).testBit i = true)
    (he : (pos.piecesC us.opp).testBit i = true) : False := by
  have := congrArg (Nat.testBit · i) hd
  simp only [Nat.testBit_land, Nat.zero_testBit] at this
  cases us <;> simp [Color.opp] at ho he <;> rw [ho, he] at this <;> simp at this

/-- `~own` decomposes disjointly into opponent pieces and empty squares;
this is what makes the `PSEUDO_LEGAL` target the disjoint union of the
`CAPTURES` and `QUIETS` targets. -/
theorem bnot_own_split (pos : Position) (us : Color)
    (hlt : ∀ c pt, pos.piecesCT c pt < 2 ^ 90)
    (hd : pos.piecesC .WHITE &&& pos.piecesC .BLACK = 0) :
    bnot (pos.piecesC us) = pos.piecesC us.opp ||| bnot pos.piecesAll := by
  apply Nat.eq_of_testBit_eq
  intro i
  rw [Nat.testBit_lor, testBit_bnot, testBit_bnot]
  have hall : pos.piecesAll.testBit i = ((pos.piecesC us).testBit i ||
      (pos.piecesC us.opp).testBit i) := by
    rw [Position.piecesAll, Nat.testBit_lor]
    cases us <;> simp [Color.opp] <;> rw [Bool.or_comm]
  rw [hall]
  by_cases h128 : i < 128
  · simp only [h128, decide_True, Bool.true_and]
    cases ho : (pos.piecesC us).testBit i <;> cases he : (pos.piecesC us.opp).testBit i
    · simp
    · simp
    · simp
    · exact absurd (testBit_own_opp hd ho he) (fun h => h)
  · have he : (pos.piecesC us.opp).testBit i = false := by
      cases h : (pos.piecesC us.opp).testBit i
      · rfl
      · exact absurd (testBit_lt_128 (piecesC_lt pos hlt _) h) h128
    simp [h128, he]

theorem opp_and_empty (pos : Position) (us : Color) :
    pos.piecesC us.opp &&& bnot pos.piecesAll = 0 := by
  apply Nat.eq_of_testBit_eq
  intro i
  rw [Nat.testBit_land, testBit_bnot, Nat.zero_testBit]
  cases he : (pos.piecesC us.opp).testBit i
  · simp
  · simp [testBit_opp_all he]

/-! ## Mode algebra of the destination bitboards -/

theorem cannonCaps_lt (env : Env) (pos : Position) (us : Color) (ty : GenType)
    (f : Nat) (hE : WFEnv env) : cannonCaps env pos us ty f < 2 ^ 90 := by
  rw [cannonCaps]
  split
  · exact lt_of_le_of_lt Nat.and_le_left (hE.1 _ _ _)
  · exact Nat.two_pow_pos 90

theorem cannonQuiets_lt (env : Env) (pos : Position) (ty : GenType)
    (f : Nat) (hE : WFEnv env) : cannonQuiets env pos ty f < 2 ^ 90 := by
  rw [cannonQuiets]
  split
  · exact lt_of_le_of_lt Nat.and_le_left (hE.1 _ _ _)
  · exact Nat.two_pow_pos 90

theorem destBB_lt (env : Env) (pos : Position) (us : Color) (pt : PieceType)
    (ty : GenType) (target : Nat) (f : Nat) (hE : WFEnv env) :
    destBB env pos us pt ty target f < 2 ^ 90 := by
  have hor := Nat.or_lt_two_pow (cannonCaps_lt env pos us ty f hE)
    (cannonQuiets_lt env pos ty f hE)
  rw [destBB]
  split
  · split
    · exact lt_of_le_of_lt Nat.and_le_left (hE.1 _ _ _)
    · exact lt_of_le_of_lt Nat.and_le_left (hE.2.1 _ _)
  · split
    · exact lt_of_le_of_lt Nat.and_le_left hor
    · exact hor

/-- Per piece and mode, the `PSEUDO_LEGAL` destinations are exactly the
union of the `CAPTURES` and the `QUIETS` destinations. -/
theorem destBB_psl_split (env : Env) (pos : Position) (us : Color)
    (pt : PieceType) (f : Nat) (hlt : ∀ c pt, pos.piecesCT c pt < 2 ^ 90)
    (hd : pos.piecesC .WHITE &&& pos.piecesC .BLACK = 0) :
    destBB env pos us pt .PSEUDO_LEGAL (genTarget pos us .PSEUDO_LEGAL) f =
      destBB env pos us pt .CAPTURES (genTarget pos us .CAPTURES) f |||
      destBB env pos us pt .QUIETS (genTarget pos us .QUIETS) f := by
  by_cases hc : pt = PieceType.CANNON
  · simp [destBB, hc, cannonCaps, cannonQuiets]
  · have hA : ∀ ty tgt, destBB env pos us pt ty tgt f =
        (if pt ≠ .PAWN then env.attacks pt f pos.piecesAll
         else env.pawnAttacks us f) &&& tgt := by
      intro ty tgt
      rw [destBB, if_pos (by simpa using hc)]
    rw [hA, hA, hA,
      show genTarget pos us .PSEUDO_LEGAL = bnot (pos.piecesC us) from rfl,
      show genTarget pos us .CAPTURES = pos.piecesC us.opp from rfl,
      show genTarget pos us .QUIETS = bnot pos.piecesAll from rfl,
      bnot_own_split pos us hlt hd, Nat.and_or_distrib_left]

/-- Per piece, a `CAPTURES`-mode destination is an opponent square. -/
theorem destBB_cap_opp {env : Env} {pos : Position} {us : Color}
    {pt : PieceType} {f t : Nat}
    (h : (destBB env pos us pt .CAPTURES (genTarget pos us .CAPTURES) f).testBit t = true) :
    (pos.piecesC us.opp).testBit t = true := by
  by_cases hc : pt = PieceType.CANNON
  · simp only [destBB, hc, cannonCaps, cannonQuiets, ne_eq, not_true_eq_false,
      ite_false, reduceCtorEq, not_false_eq_true, ite_true] at h
    simp only [Nat.testBit_lor, Nat.testBit_land, Nat.zero_testBit, Bool.or_false] at h
    exact (Bool.and_eq_true_iff.mp h).2
  · rw [destBB, if_pos (by simpa using hc),
      show genTarget pos us .CAPTURES = pos.piecesC us.opp from rfl,
      Nat.testBit_land] at h
    exact (Bool.and_eq_true_iff.mp h).2

/-- Per piece, a `QUIETS`-mode destination is an empty square. -/
theorem destBB_qui_empty {env : Env} {pos : Position} {us : Color}
    {pt : PieceType} {f t : Nat}
    (h : (destBB env pos us pt .QUIETS (genTarget pos us .QUIETS) f).testBit t = true) :
    (bnot pos.piecesAll).testBit t = true := by
  by_cases hc : pt = PieceType.CANNON
  · simp only [destBB, hc, cannonCaps, cannonQuiets, ne_eq, not_true_eq_false,
      ite_false, reduceCtorEq, not_false_eq_true, ite_true] at h
    simp only [Nat.testBit_lor, Nat.testBit_land, Nat.zero_testBit, Bool.false_or] at h
    exact (Bool.and_eq_true_iff.mp h).2
  · rw [destBB, if_pos (by simpa using hc),
      show genTarget pos us .QUIETS = bnot pos.piecesAll from rfl,
      Nat.testBit_land] at h
    exact (Bool.and_eq_true_iff.mp h).2

theorem opp_empty_contra {pos : Position} {us : Color} {t : Nat}
    (h1 : (pos.piecesC us.opp).testBit t = true)
    (h2 : (bnot pos.piecesAll).testBit t = true) : False := by
  have := congrArg (Nat.testBit · t) (opp_and_empty pos us)
  simp only [Nat.testBit_land, Nat.zero_testBit] at this
  rw [h1, h2] at this
  simp at this

/-! ## Membership characterizations for the generators -/

theorem mem_generate_moves {env : Env} {pos : Position} {us : Color}
    {pt : PieceType} {ty : GenType} {target : Nat} {f t : Nat}
    (hp : pos.piecesCT us pt < 2 ^ 128) (hE : WFEnv env) :
    Move.mk f t ∈ generate_moves env pos us pt ty target ↔
      ((pos.piecesCT us pt).testBit f = true ∧
       (destBB env pos us pt ty target f).testBit t = true) := by
  have hdlt : ∀ s, destBB env pos us pt ty target s < 2 ^ 128 := fun s =>
    lt_of_lt_of_le (destBB_lt env pos us pt ty target s hE)
      (Nat.pow_le_pow_right (by omega) (by omega))
  simp only [generate_moves, List.mem_flatMap, List.mem_map]
  constructor
  · rintro ⟨a, ha, b, hb, hab⟩
    injection hab with h1 h2
    subst h1
    subst h2
    exact ⟨(mem_bitIndices hp).mp ha, (mem_bitIndices (hdlt _)).mp hb⟩
  · rintro ⟨hf, ht⟩
    exact ⟨f, (mem_bitIndices hp).mpr hf, t, (mem_bitIndices (hdlt f)).mpr ht, rfl⟩

theorem mem_generate_moves_all {env : Env} {pos : Position} {us : Color}
    {ty : GenType} {target : Nat} {f t : Nat}
    (hlt : ∀ c pt, pos.piecesCT c pt < 2 ^ 90) (hE : WFEnv env) :
    Move.mk f t ∈ generate_moves_all env pos us ty target ↔
      (∃ pt ∈ [PieceType.PAWN, PieceType.BISHOP, PieceType.ADVISOR,
               PieceType.KNIGHT, PieceType.CANNON, PieceType.ROOK],
        (pos.piecesCT us pt).testBit f = true ∧
        (destBB env pos us pt ty target f).testBit t = true) := by
  have hb : ∀ pt, pos.piecesCT us pt < 2 ^ 128 := fun pt =>
    lt_of_lt_of_le (hlt us pt) (Nat.pow_le_pow_right (by omega) (by omega))
  simp only [generate_moves_all, List.mem_append, mem_generate_moves (hb _) hE,
    List.mem_cons, List.not_mem_nil, or_false]
  constructor
  · rintro (((((h | h) | h) | h) | h) | h)
    exacts [⟨_, Or.inl rfl, h⟩, ⟨_, Or.inr (Or.inl rfl), h⟩,
      ⟨_, Or.inr (Or.inr (Or.inl rfl)), h⟩,
      ⟨_, Or.inr (Or.inr (Or.inr (Or.inl rfl))), h⟩,
      ⟨_, Or.inr (Or.inr (Or.inr (Or.inr (Or.inl rfl)))), h⟩,
      ⟨_, Or.inr (Or.inr (Or.inr (Or.inr (Or.inr rfl)))), h⟩]
  · rintro ⟨pt, (rfl | rfl | rfl | rfl | rfl | rfl), h⟩
    · exact Or.inl (Or.inl (Or.inl (Or.inl (Or.inl h))))
    · exact Or.inl (Or.inl (Or.inl (Or.inl (Or.inr h))))
    · exact Or.inl (Or.inl (Or.inl (Or.inr h)))
    · exact Or.inl (Or.inl (Or.inr h))
    · exact Or.inl (Or.inr h)
    · exact Or.inr h

theorem mem_generate_all {env : Env} {pos : Position} {us : Color}
    {ty : GenType} {f t : Nat} (hlt : ∀ c pt, pos.piecesCT c pt < 2 ^ 90)
    (hE : WFEnv env) (hne : ty ≠ .EVASIONS) :
    Move.mk f t ∈ generate_all env pos us ty ↔
      ((∃ pt ∈ [PieceType.PAWN, PieceType.BISHOP, PieceType.ADVISOR,
                PieceType.KNIGHT, PieceType.CANNON, PieceType.ROOK],
          (pos.piecesCT us pt).testBit f = true ∧
          (destBB env pos us pt ty (genTarget pos us ty) f).testBit t = true) ∨
       (f = pos.kingSquare us ∧
        (env.kingAttacks (pos.kingSquare us) &&& genTarget pos us ty).testBit t = true)) := by
  have hkb : env.kingAttacks (pos.kingSquare us) &&& genTarget pos us ty < 2 ^ 128 :=
    lt_of_le_of_lt Nat.and_le_left
      (lt_of_lt_of_le (hE.2.2.1 _) (Nat.pow_le_pow_right (by omega) (by omega)))
  rw [generate_all]
  simp only [hne, ite_true, if_true, ne_eq, not_false_eq_true, List.mem_append,
    mem_generate_moves_all hlt hE, List.mem_map]
  constructor
  · rintro (h | ⟨b, hb, hmk⟩)
    · exact Or.inl h
    · injection hmk with h1 h2
      subst h1
      subst h2
      exact Or.inr ⟨rfl, (mem_bitIndices hkb).mp hb⟩
  · rintro (h | ⟨rfl, hk⟩)
    · exact Or.inl h
    · exact Or.inr ⟨t, (mem_bitIndices hkb).mpr hk, rfl⟩

/-- Helper for the partition theorem: one direction of the disjointness,
a `CAPTURES` move always lands on an opponent square. -/
theorem mem_captures_opp {env : Env} {pos : Position} {f t : Nat}
    (hB : WFBoard pos) (hE : WFEnv env)
    (h : Move.mk f t ∈ generate env pos .CAPTURES) :
    (pos.piecesC pos.sideToMove.opp).testBit t = true := by
  rw [generate, mem_generate_all hB.1 hE (by simp)] at h
  rcases h with ⟨pt, _, _, hdest⟩ | ⟨_, hk⟩
  · exact destBB_cap_opp hdest
  · rw [show genTarget pos pos.sideToMove .CAPTURES =
        pos.piecesC pos.sideToMove.opp from rfl, Nat.testBit_land] at hk
    exact (Bool.and_eq_true_iff.mp hk).2

/-- Helper for the partition theorem: a `QUIETS` move always lands on an
empty square. -/
theorem mem_quiets_empty {env : Env} {pos : Position} {f t : Nat}
    (hB : WFBoard pos) (hE : WFEnv env)
    (h : Move.mk f t ∈ generate env pos .QUIETS) :
    (bnot pos.piecesAll).testBit t = true := by
  rw [generate, mem_generate_all hB.1 hE (by simp)] at h
  rcases h with ⟨pt, _, _, hdest⟩ | ⟨_, hk⟩
  · exact destBB_qui_empty hdest
  · rw [show genTarget pos pos.sideToMove .QUIETS = bnot pos.piecesAll from rfl,
      Nat.testBit_land] at hk
    exact (Bool.and_eq_true_iff.mp hk).2

/-! ## Claim C9: CAPTURES and QUIETS partition PSEUDO_LEGAL -/

/-- C9: for every well-formed board, the move lists returned by
`generate<CAPTURES>` and `generate<QUIETS>` are disjoint (no move occurs
in both), and their union as sets equals the move list returned by
`generate<PSEUDO_LEGAL>`. -/
theorem captures_quiets_partition_pseudo_legal (env : Env) (pos : Position)
    (hB : WFBoard pos) (hE : WFEnv env) (m : Move) :
    (m ∈ generate env pos .PSEUDO_LEGAL ↔
      (m ∈ generate env pos .CAPTURES ∨ m ∈ generate env pos .QUIETS)) ∧
    ¬(m ∈ generate env pos .CAPTURES ∧ m ∈ generate env pos .QUIETS) := by
  obtain ⟨f, t⟩ := m
  obtain ⟨hlt, hd⟩ := hB
  constructor
  · rw [generate, generate, generate, mem_generate_all hlt hE (by simp),
      mem_generate_all hlt hE (by simp), mem_generate_all hlt hE (by simp)]
    have hsplit : ∀ pt : PieceType,
        destBB env pos pos.sideToMove pt .PSEUDO_LEGAL
            (genTarget pos pos.sideToMove .PSEUDO_LEGAL) f =
          destBB env pos pos.sideToMove pt .CAPTURES
              (genTarget pos pos.sideToMove .CAPTURES) f |||
            destBB env pos pos.sideToMove pt .QUIETS
              (genTarget pos pos.sideToMove .QUIETS) f :=
      fun pt => destBB_psl_split env pos pos.sideToMove pt f hlt hd
    have hksplit :
        env.kingAttacks (pos.kingSquare pos.sideToMove) &&&
            genTarget pos pos.sideToMove .PSEUDO_LEGAL =
          (env.kingAttacks (pos.kingSquare pos.sideToMove) &&&
              genTarget pos pos.sideToMove .CAPTURES) |||
            (env.kingAttacks (pos.kingSquare pos.sideToMove) &&&
              genTarget pos pos.sideToMove .QUIETS) := by
      rw [show genTarget pos pos.sideToMove .PSEUDO_LEGAL =
          bnot (pos.piecesC pos.sideToMove) from rfl,
        bnot_own_split pos _ hlt hd, Nat.and_or_distrib_left]
      rfl
    constructor
    · rintro (⟨pt, hmem, hp, hdest⟩ | ⟨rfl, hk⟩)
      · rw [hsplit pt, Nat.testBit_lor, Bool.or_eq_true] at hdest
        rcases hdest with h | h
        · exact Or.inl (Or.inl ⟨pt, hmem, hp, h⟩)
        · exact Or.inr (Or.inl ⟨pt, hmem, hp, h⟩)
      · rw [hksplit, Nat.testBit_lor, Bool.or_eq_true] at hk
        rcases hk with h | h
        · exact Or.inl (Or.inr ⟨rfl, h⟩)
        · exact Or.inr (Or.inr ⟨rfl, h⟩)
    · rintro ((⟨pt, hmem, hp, hdest⟩ | ⟨rfl, hk⟩) | (⟨pt, hmem, hp, hdest⟩ | ⟨rfl, hk⟩))
      · refine Or.inl ⟨pt, hmem, hp, ?_⟩
        rw [hsplit pt, Nat.testBit_lor, hdest]
        rfl
      · refine Or.inr ⟨rfl, ?_⟩
        rw [hksplit, Nat.testBit_lor, hk]
        rfl
      · refine Or.inl ⟨pt, hmem, hp, ?_⟩
        rw [hsplit pt, Nat.testBit_lor, hdest]
        simp
      · refine Or.inr ⟨rfl, ?_⟩
        rw [hksplit, Nat.testBit_lor, hk]
        simp
  · rintro ⟨hc, hq⟩
    exact opp_empty_contra (mem_captures_opp ⟨hlt, hd⟩ hE hc)
      (mem_quiets_empty ⟨hlt, hd⟩ hE hq)

/-- Witness for C9 at a concrete board and move: the White rook on 2
capturing the Black pawn on 3. -/
theorem captures_quiets_partition_pseudo_legal_witness :
    WFBoard wPos ∧ WFEnv wEnv ∧
    ((Move.mk 2 3 ∈ generate wEnv wPos .PSEUDO_LEGAL ↔
      (Move.mk 2 3 ∈ generate wEnv wPos .CAPTURES ∨
       Move.mk 2 3 ∈ generate wEnv wPos .QUIETS)) ∧
    ¬(Move.mk 2 3 ∈ generate wEnv wPos .CAPTURES ∧
      Move.mk 2 3 ∈ generate wEnv wPos .QUIETS)) := by
  have hB : WFBoard wPos := ⟨by decide, by decide⟩
  have hE : WFEnv wEnv :=
    ⟨fun _ _ _ => by norm_num [wEnv], fun _ _ => by norm_num [wEnv],
     fun _ => by norm_num [wEnv], fun _ _ => by norm_num [wEnv],
     fun _ _ => by norm_num [wEnv]⟩
  exact ⟨hB, hE, captures_quiets_partition_pseudo_legal wEnv wPos hB hE (Move.mk 2 3)⟩

/-! ## Claim C4: the two disjoint cannon move shapes -/

/-- C4: for every board and cannon of the side to move, the generated
moves split into two disjoint shapes — captures are cannon attacks over
one screen into opponent pieces, non-captures are rook-like zero-blocker
attacks into empty squares; `QUIETS` emits only the non-capture shape,
`CAPTURES` only the capture shape, `PSEUDO_LEGAL` both, and `EVASIONS`
both intersected with the evasion target. -/
theorem cannon_two_shapes (env : Env) (pos : Position) (us : Color)
    (target : Nat) (f t : Nat) (hB : WFBoard pos) (hE : WFEnv env) :
    (env.attacks .CANNON f pos.piecesAll &&& pos.piecesC us.opp) &&&
      (env.attacks .ROOK f pos.piecesAll &&& bnot pos.piecesAll) = 0 ∧
    (Move.mk f t ∈ generate_moves env pos us .CANNON .QUIETS target ↔
      ((pos.piecesCT us .CANNON).testBit f = true ∧
       (env.attacks .ROOK f pos.piecesAll &&& bnot pos.piecesAll).testBit t = true)) ∧
    (Move.mk f t ∈ generate_moves env pos us .CANNON .CAPTURES target ↔
      ((pos.piecesCT us .CANNON).testBit f = true ∧
       (env.attacks .CANNON f pos.piecesAll &&& pos.piecesC us.opp).testBit t = true)) ∧
    (Move.mk f t ∈ generate_moves env pos us .CANNON .PSEUDO_LEGAL target ↔
      ((pos.piecesCT us .CANNON).testBit f = true ∧
       ((env.attacks .CANNON f pos.piecesAll &&& pos.piecesC us.opp) |||
        (env.attacks .ROOK f pos.piecesAll &&& bnot pos.piecesAll)).testBit t = true)) ∧
    (Move.mk f t ∈ generate_moves env pos us .CANNON .EVASIONS target ↔
      ((pos.piecesCT us .CANNON).testBit f = true ∧
       (((env.attacks .CANNON f pos.piecesAll &&& pos.piecesC us.opp) |||
         (env.attacks .ROOK f pos.piecesAll &&& bnot pos.piecesAll)) &&&
           target).testBit t = true)) := by
  have hp : pos.piecesCT us .CANNON < 2 ^ 128 :=
    lt_of_lt_of_le (hB.1 us .CANNON) (Nat.pow_le_pow_right (by omega) (by omega))
  refine ⟨?_, ?_, ?_, ?_, ?_⟩
  · apply Nat.eq_of_testBit_eq
    intro i
    have h0 := congrArg (Nat.testBit · i) (opp_and_empty pos us)
    simp only [Nat.testBit_land, Nat.zero_testBit] at h0 ⊢
    cases hatt : (pos.piecesC us.opp).testBit i
    · simp
    · cases hemp : (bnot pos.piecesAll).testBit i
      · simp
      · rw [hatt, hemp] at h0
        simp at h0
  · rw [mem_generate_moves hp hE]
    simp [destBB, cannonCaps, cannonQuiets]
  · rw [mem_generate_moves hp hE]
    simp [destBB, cannonCaps, cannonQuiets]
  · rw [mem_generate_moves hp hE]
    simp [destBB, cannonCaps, cannonQuiets]
  · rw [mem_generate_moves hp hE]
    simp [destBB, cannonCaps, cannonQuiets]

/-- Witness for C4 at a concrete board: the White cannon on 6. -/
theorem cannon_two_shapes_witness :
    WFBoard wPos ∧ WFEnv wEnv ∧
    ((wEnv.attacks .CANNON 6 wPos.piecesAll &&& wPos.piecesC Color.WHITE.opp) &&&
      (wEnv.attacks .ROOK 6 wPos.piecesAll &&& bnot wPos.piecesAll) = 0 ∧
    (Move.mk 6 3 ∈ generate_moves wEnv wPos .WHITE .CANNON .QUIETS 0 ↔
      ((wPos.piecesCT .WHITE .CANNON).testBit 6 = true ∧
       (wEnv.attacks .ROOK 6 wPos.piecesAll &&& bnot wPos.piecesAll).testBit 3 = true)) ∧
    (Move.mk 6 3 ∈ generate_moves wEnv wPos .WHITE .CANNON .CAPTURES 0 ↔
      ((wPos.piecesCT .WHITE .CANNON).testBit 6 = true ∧
       (wEnv.attacks .CANNON 6 wPos.piecesAll &&& wPos.piecesC Color.WHITE.opp).testBit 3 = true)) ∧
    (Move.mk 6 3 ∈ generate_moves wEnv wPos .WHITE .CANNON .PSEUDO_LEGAL 0 ↔
      ((wPos.piecesCT .WHITE .CANNON).testBit 6 = true ∧
       ((wEnv.attacks .CANNON 6 wPos.piecesAll &&& wPos.piecesC Color.WHITE.opp) |||
        (wEnv.attacks .ROOK 6 wPos.piecesAll &&& bnot wPos.piecesAll)).testBit 3 = true)) ∧
    (Move.mk 6 3 ∈ generate_moves wEnv wPos .WHITE .CANNON .EVASIONS 0 ↔
      ((wPos.piecesCT .WHITE .CANNON).testBit 6 = true ∧
       (((wEnv.attacks .CANNON 6 wPos.piecesAll &&& wPos.piecesC Color.WHITE.opp) |||
         (wEnv.attacks .ROOK 6 wPos.piecesAll &&& bnot wPos.piecesAll)) &&&
           0).testBit 3 = true))) := by
  have hB : WFBoard wPos := ⟨by decide, by decide⟩
  have hE : WFEnv wEnv :=
    ⟨fun _ _ _ => by norm_num [wEnv], fun _ _ => by norm_num [wEnv],
     fun _ => by norm_num [wEnv], fun _ _ => by norm_num [wEnv],
     fun _ _ => by norm_num [wEnv]⟩
  exact ⟨hB, hE, cannon_two_shapes wEnv wPos .WHITE 0 6 3 hB hE⟩

/-! ## Claim C2: `generate<LEGAL>` is the legality filter of the
candidates -/

/-- C2: `generate<LEGAL>` returns exactly the moves of
`generate<EVASIONS>` (in check) or `generate<PSEUDO_LEGAL>` (otherwise)
that satisfy `pos.legal`: as a multiset the result is the filtered
candidate list (so every legal candidate survives exactly as often as it
was generated, in particular exactly once when the candidates are
duplicate-free), no move failing the legality predicate appears, and no
duplicates appear provided the candidate list has none; only the multiset
— not the order — is characterized, matching the swap-with-last removal. -/
theorem legal_filters_candidates (env : Env) (pos : Position) :
    ((generate_LEGAL env pos : Multiset Move) =
      (((if pos.checkersBB ≠ 0 then generate_EVASIONS env pos
         else generate env pos .PSEUDO_LEGAL).filter pos.legalMove : List Move) :
        Multiset Move)) ∧
    (∀ m ∈ generate_LEGAL env pos, pos.legalMove m = true) ∧
    (∀ m : Move, m ∈ generate_LEGAL env pos ↔
      (m ∈ (if pos.checkersBB ≠ 0 then generate_EVASIONS env pos
            else generate env pos .PSEUDO_LEGAL) ∧ pos.legalMove m = true)) ∧
    ((if pos.checkersBB ≠ 0 then generate_EVASIONS env pos
      else generate env pos .PSEUDO_LEGAL).Nodup → (generate_LEGAL env pos).Nodup) := by
  have hperm : (generate_LEGAL env pos).Perm
      ((if pos.checkersBB ≠ 0 then generate_EVASIONS env pos
        else generate env pos .PSEUDO_LEGAL).filter pos.legalMove) :=
    legalFilterLoop_perm pos.legalMove _
  refine ⟨Multiset.coe_eq_coe.mpr hperm, ?_, ?_, ?_⟩
  · intro m hm
    have := hperm.mem_iff.mp hm
    exact (List.mem_filter.mp this).2
  · intro m
    rw [hperm.mem_iff, List.mem_filter]
  · intro hnd
    exact hperm.nodup_iff.mpr (hnd.filter pos.legalMove)

/-! ## Claim C3: king evasions against a sliding-line checker -/

/-- C3 (amended): for a board in check by exactly one `ROOK`- or
`CANNON`-type checker, the king moves emitted by `generate<EVASIONS>` are
the king's attack-pattern squares not occupied by own pieces, excluding
squares still aligned with the checker along the line through checker and
king **except where the destination square holds an opponent piece**
(which keeps the capture of the checker, and, for a cannon checker, also
the capture of an opponent screen adjacent to the king) — not only the
capture of the checker itself as the claim states. -/
theorem evasion_king_moves_slider (env : Env) (pos : Position)
    (hB : WFBoard pos) (hE : WFEnv env)
    (hone : more_than_one pos.checkersBB = false)
    (hpt : pos.pieceTypeOn (lsb pos.checkersBB) = PieceType.ROOK ∨
           pos.pieceTypeOn (lsb pos.checkersBB) = PieceType.CANNON)
    (t : Nat) :
    ((Move.mk (pos.kingSquare pos.sideToMove) t ∈
        (bitIndices (evasionKingBB env pos pos.sideToMove
          (pos.kingSquare pos.sideToMove) (lsb pos.checkersBB)
          (pos.pieceTypeOn (lsb pos.checkersBB)))).map
          (Move.mk (pos.kingSquare pos.sideToMove))) ↔
      ((env.kingAttacks (pos.kingSquare pos.sideToMove)).testBit t = true ∧
       (pos.piecesC pos.sideToMove).testBit t = false ∧
       ((env.line (lsb pos.checkersBB) (pos.kingSquare pos.sideToMove)).testBit t = false ∨
        (pos.piecesC pos.sideToMove.opp).testBit t = true))) ∧
    (∀ s, Move.mk (pos.kingSquare pos.sideToMove) s ∈
        (bitIndices (evasionKingBB env pos pos.sideToMove
          (pos.kingSquare pos.sideToMove) (lsb pos.checkersBB)
          (pos.pieceTypeOn (lsb pos.checkersBB)))).map
          (Move.mk (pos.kingSquare pos.sideToMove)) →
      Move.mk (pos.kingSquare pos.sideToMove) s ∈ generate_EVASIONS env pos) := by
  have hklt : ∀ x, env.kingAttacks (pos.kingSquare pos.sideToMove) &&& x < 2 ^ 128 :=
    fun x => lt_of_le_of_lt Nat.and_le_left
      (lt_of_lt_of_le (hE.2.2.1 _) (Nat.pow_le_pow_right (by omega) (by omega)))
  have hbb : evasionKingBB env pos pos.sideToMove (pos.kingSquare pos.sideToMove)
      (lsb pos.checkersBB) (pos.pieceTypeOn (lsb pos.checkersBB)) < 2 ^ 128 := by
    have h1 : env.kingAttacks (pos.kingSquare pos.sideToMove) &&&
        bnot (pos.piecesC pos.sideToMove) < 2 ^ 128 := hklt _
    simp only [evasionKingBB]
    split
    all_goals first
      | exact lt_of_le_of_lt Nat.and_le_left h1
      | exact h1
  have hmm : ∀ s, (Move.mk (pos.kingSquare pos.sideToMove) s ∈
      (bitIndices (evasionKingBB env pos pos.sideToMove
        (pos.kingSquare pos.sideToMove) (lsb pos.checkersBB)
        (pos.pieceTypeOn (lsb pos.checkersBB)))).map
        (Move.mk (pos.kingSquare pos.sideToMove))) ↔
      s ∈ bitIndices (evasionKingBB env pos pos.sideToMove
        (pos.kingSquare pos.sideToMove) (lsb pos.checkersBB)
        (pos.pieceTypeOn (lsb pos.checkersBB))) := by
    intro s
    constructor
    · intro h
      obtain ⟨a, ha, heq⟩ := List.mem_map.mp h
      injection heq with h1 h2
      subst h2
      exact ha
    · intro h
      exact List.mem_map.mpr ⟨s, h, rfl⟩
  have hshape : ∀ s, s ∈ bitIndices (evasionKingBB env pos pos.sideToMove
      (pos.kingSquare pos.sideToMove) (lsb pos.checkersBB)
      (pos.pieceTypeOn (lsb pos.checkersBB))) ↔
      ((env.kingAttacks (pos.kingSquare pos.sideToMove)).testBit s = true ∧
       (pos.piecesC pos.sideToMove).testBit s = false ∧
       ((env.line (lsb pos.checkersBB) (pos.kingSquare pos.sideToMove)).testBit s = false ∨
        (pos.piecesC pos.sideToMove.opp).testBit s = true)) := by
    intro s
    rw [mem_bitIndices hbb, evasionKingBB, if_pos hpt]
    simp only [Nat.testBit_land, Nat.testBit_lor, testBit_bnot,
      Bool.and_eq_true, Bool.or_eq_true, Bool.not_eq_true',
      decide_eq_true_eq]
    constructor
    · rintro ⟨⟨hka, _, hown⟩, hrest⟩
      refine ⟨hka, hown, ?_⟩
      rcases hrest with ⟨_, hnl⟩ | hopp
      · exact Or.inl hnl
      · exact Or.inr hopp
    · rintro ⟨hka, hown, hrest⟩
      have h128 : s < 128 := testBit_lt_128 (hE.2.2.1 _) hka
      refine ⟨⟨hka, h128, hown⟩, ?_⟩
      rcases hrest with hnl | hopp
      · exact Or.inl ⟨h128, hnl⟩
      · exact Or.inr hopp
  constructor
  · rw [hmm t, hshape t]
  · intro s hs
    have hsplit : generate_EVASIONS env pos =
        generate_moves_all env pos pos.sideToMove .EVASIONS
          (env.between (pos.kingSquare pos.sideToMove) (lsb pos.checkersBB) &&&
            bnot (pos.piecesC pos.sideToMove)) ++
        (bitIndices (evasionKingBB env pos pos.sideToMove
          (pos.kingSquare pos.sideToMove) (lsb pos.checkersBB)
          (pos.pieceTypeOn (lsb pos.checkersBB)))).map
          (Move.mk (pos.kingSquare pos.sideToMove)) ++
        (if pos.pieceTypeOn (lsb pos.checkersBB) = .CANNON then
          evasionHurdleMoves env pos pos.sideToMove
            (pos.kingSquare pos.sideToMove) (lsb pos.checkersBB)
         else []) := by
      rw [generate_EVASIONS, if_neg (by simp [hone])]
    rw [hsplit, List.mem_append, List.mem_append]
    exact Or.inl (Or.inr hs)

/-- C3 counterexample: in `cPos3` the Black cannon on 27 checks the White
king on 0 through a Black pawn screen on 9; `generate<EVASIONS>` emits the
king move 0 → 9 although 9 is still aligned with the checker and is not
the checker's square, contradicting the claim's "except where the move
itself captures the checker" (the spec-worded destination set
`claimKingEvasionBB` excludes square 9). -/
theorem evasion_king_moves_slider_counterexample :
    cPos3.checkersBB ≠ 0 ∧ more_than_one cPos3.checkersBB = false ∧
    lsb cPos3.checkersBB = 27 ∧ cPos3.kingSquare .WHITE = 0 ∧
    cPos3.pieceTypeOn 27 = PieceType.CANNON ∧
    Move.mk 0 9 ∈ generate_EVASIONS cEnv3 cPos3 ∧
    (cEnv3.line 27 0).testBit 9 = true ∧ (9 : Nat) ≠ 27 ∧
    (claimKingEvasionBB cEnv3 cPos3 .WHITE 0 27 PieceType.CANNON).testBit 9 = false := by
  decide

/-- Witness for the amended C3 at `cPos3`, destination square 9. -/
theorem evasion_king_moves_slider_witness :
    WFBoard cPos3 ∧ WFEnv cEnv3 ∧
    more_than_one cPos3.checkersBB = false ∧
    (cPos3.pieceTypeOn (lsb cPos3.checkersBB) = PieceType.ROOK ∨
     cPos3.pieceTypeOn (lsb cPos3.checkersBB) = PieceType.CANNON) ∧
    (((Move.mk (cPos3.kingSquare cPos3.sideToMove) 9 ∈
        (bitIndices (evasionKingBB cEnv3 cPos3 cPos3.sideToMove
          (cPos3.kingSquare cPos3.sideToMove) (lsb cPos3.checkersBB)
          (cPos3.pieceTypeOn (lsb cPos3.checkersBB)))).map
          (Move.mk (cPos3.kingSquare cPos3.sideToMove))) ↔
      ((cEnv3.kingAttacks (cPos3.kingSquare cPos3.sideToMove)).testBit 9 = true ∧
       (cPos3.piecesC cPos3.sideToMove).testBit 9 = false ∧
       ((cEnv3.line (lsb cPos3.checkersBB) (cPos3.kingSquare cPos3.sideToMove)).testBit 9 = false ∨
        (cPos3.piecesC cPos3.sideToMove.opp).testBit 9 = true))) ∧
    (∀ s, Move.mk (cPos3.kingSquare cPos3.sideToMove) s ∈
        (bitIndices (evasionKingBB cEnv3 cPos3 cPos3.sideToMove
          (cPos3.kingSquare cPos3.sideToMove) (lsb cPos3.checkersBB)
          (cPos3.pieceTypeOn (lsb cPos3.checkersBB)))).map
          (Move.mk (cPos3.kingSquare cPos3.sideToMove)) →
      Move.mk (cPos3.kingSquare cPos3.sideToMove) s ∈ generate_EVASIONS cEnv3 cPos3)) := by
  have hB : WFBoard cPos3 := ⟨by decide, by decide⟩
  have hE : WFEnv cEnv3 := by
    refine ⟨fun pt sq occ => ?_, fun c sq => ?_, fun sq => ?_, fun a b => ?_, fun a b => ?_⟩
    · norm_num [cEnv3]
    · norm_num [cEnv3]
    · dsimp only [cEnv3]
      split <;> norm_num
    · dsimp only [cEnv3]
      split <;> norm_num
    · dsimp only [cEnv3]
      split <;> norm_num
  exact ⟨hB, hE, by decide, by decide,
    evasion_king_moves_slider cEnv3 cPos3 hB hE (by decide) (by decide) 9⟩

/-! ## Claim C5: the evasion target and the double-check fallback -/

/-- C5 (amended): with more than one checker `generate<EVASIONS>` returns
exactly the `generate<PSEUDO_LEGAL>` output; with a single checker the
output is the non-king moves generated against the target
`between_bb(ksq, checksq) & ~own`, followed by the dedicated king moves,
followed — **only when the checker is the cannon-analogue** — by the
screen-relocation moves; in particular for a non-cannon single checker the
non-king moves emitted are exactly those generated against that target. -/
theorem evasions_target_and_fallback (env : Env) (pos : Position) :
    (more_than_one pos.checkersBB = true →
      generate_EVASIONS env pos = generate env pos .PSEUDO_LEGAL) ∧
    (more_than_one pos.checkersBB = false →
      generate_EVASIONS env pos =
        generate_moves_all env pos pos.sideToMove .EVASIONS
          (env.between (pos.kingSquare pos.sideToMove) (lsb pos.checkersBB) &&&
            bnot (pos.piecesC pos.sideToMove)) ++
        (bitIndices (evasionKingBB env pos pos.sideToMove
          (pos.kingSquare pos.sideToMove) (lsb pos.checkersBB)
          (pos.pieceTypeOn (lsb pos.checkersBB)))).map
          (Move.mk (pos.kingSquare pos.sideToMove)) ++
        (if pos.pieceTypeOn (lsb pos.checkersBB) = .CANNON then
          evasionHurdleMoves env pos pos.sideToMove
            (pos.kingSquare pos.sideToMove) (lsb pos.checkersBB)
         else [])) ∧
    (more_than_one pos.checkersBB = false →
      pos.pieceTypeOn (lsb pos.checkersBB) ≠ .CANNON →
      ∀ f t, f ≠ pos.kingSquare pos.sideToMove →
        (Move.mk f t ∈ generate_EVASIONS env pos ↔
         Move.mk f t ∈ generate_moves_all env pos pos.sideToMove .EVASIONS
          (env.between (pos.kingSquare pos.sideToMove) (lsb pos.checkersBB) &&&
            bnot (pos.piecesC pos.sideToMove)))) := by
  refine ⟨?_, ?_, ?_⟩
  · intro h
    rw [generate_EVASIONS, if_pos (by simp [h])]
  · intro h
    rw [generate_EVASIONS, if_neg (by simp [h])]
  · intro h hc f t hf
    rw [generate_EVASIONS, if_neg (by simp [h])]
    simp only [hc, if_false, List.append_nil, List.mem_append, List.mem_map]
    constructor
    · rintro (hm | ⟨a, _, heq⟩)
      · exact hm
      · injection heq with h1 h2
        exact absurd h1.symm hf
    · exact Or.inl

/-- C5 counterexample: in `cPos5` the Black cannon on 27 checks through
the White knight screen on 9; `generate<EVASIONS>` emits the non-king
screen-relocation move 9 → 29, which is not produced by generation
against the blocking/capturing target (29 is not even in the target), so
the non-king output is *not* exactly "generated against the target". -/
theorem evasions_target_counterexample :
    more_than_one cPos5.checkersBB = false ∧
    cPos5.pieceTypeOn (lsb cPos5.checkersBB) = PieceType.CANNON ∧
    (9 : Nat) ≠ cPos5.kingSquare cPos5.sideToMove ∧
    Move.mk 9 29 ∈ generate_EVASIONS cEnv5 cPos5 ∧
    Move.mk 9 29 ∉ generate_moves_all cEnv5 cPos5 cPos5.sideToMove .EVASIONS
      (cEnv5.between (cPos5.kingSquare cPos5.sideToMove) (lsb cPos5.checkersBB) &&&
        bnot (cPos5.piecesC cPos5.sideToMove)) ∧
    (cEnv5.between (cPos5.kingSquare cPos5.sideToMove) (lsb cPos5.checkersBB) &&&
      bnot (cPos5.piecesC cPos5.sideToMove)).testBit 29 = false := by
  decide

/-! ## Claim C10: the stdout read bridge -/

theorem cString_append_zero (l rest : List Nat) :
    cString (l ++ 0 :: rest) = cString l := by
  induction l with
  | nil => simp [cString]
  | cons a l ih =>
    by_cases ha : a = 0
    · simp [cString, ha]
    · simpa [cString, ha] using ih

/-- C10: `pikafish_stdout_read` returns `NULL` exactly when the read
count is negative or the bytes read compare equal (as C strings, the
`strcmp` criterion) to `"quitok\n"`; otherwise it returns the shared
80-byte buffer holding the at most 79 bytes read, NUL-terminated at the
read count. `buf` is the previous buffer contents, `count`/`data` the
read's return value and transferred bytes. -/
theorem stdout_read_contract (buf : List Nat) (count : Int) (data : List Nat)
    (hdata : data.length = count.toNat) (hcount : count ≤ 79)
    (hbuf : buf.length = 80) :
    (pikafish_stdout_read buf count data = none ↔
      (count < 0 ∨ cString data = QUITOK)) ∧
    (∀ out, pikafish_stdout_read buf count data = some out →
      out.length = 80 ∧ out.take count.toNat = data ∧
      out.getD count.toNat 1 = 0 ∧ cString out = cString data) := by
  have htake : data.take count.toNat = data := by
    rw [← hdata, List.take_length]
  by_cases hneg : count < 0
  · constructor
    · simp [pikafish_stdout_read, hneg]
    · intro out hout
      simp [pikafish_stdout_read, hneg] at hout
  · have hbuf2 : data.take count.toNat ++ [0] ++ buf.drop (count.toNat + 1) =
        data ++ (0 :: buf.drop (count.toNat + 1)) := by
      rw [htake, List.append_assoc]
      rfl
    have hread : pikafish_stdout_read buf count data =
        if cString (data ++ 0 :: buf.drop (count.toNat + 1)) = QUITOK then none
        else some (data ++ 0 :: buf.drop (count.toNat + 1)) := by
      rw [pikafish_stdout_read, if_neg hneg, hbuf2]
    have hcs' := cString_append_zero data (buf.drop (count.toNat + 1))
    constructor
    · rw [hread]
      simp only [hcs']
      by_cases hq : cString data = QUITOK
      · simp [hq, hneg]
      · simp [hq, hneg]
    · intro out hout
      rw [hread] at hout
      simp only [hcs'] at hout
      by_cases hq : cString data = QUITOK
      · simp [hq] at hout
      · simp only [if_neg hq, Option.some.injEq] at hout
        subst hout
        refine ⟨?_, List.take_left' hdata, ?_, hcs'⟩
        · simp only [List.length_append, List.length_cons, List.length_drop, hbuf]
          omega
        · rw [List.getD_append_right _ _ _ _ (le_of_eq hdata)]
          simp [← hdata]

/-- Witness for C10: reading the five bytes of `"hello"` into the static
buffer. -/
theorem stdout_read_contract_witness :
    ([104, 101, 108, 108, 111] : List Nat).length = (5 : Int).toNat ∧
    (5 : Int) ≤ 79 ∧ (List.replicate 80 7 : List Nat).length = 80 ∧
    ((pikafish_stdout_read (List.replicate 80 7) 5 [104, 101, 108, 108, 111] = none ↔
      ((5 : Int) < 0 ∨ cString [104, 101, 108, 108, 111] = QUITOK)) ∧
    (∀ out, pikafish_stdout_read (List.replicate 80 7) 5 [104, 101, 108, 108, 111] =
        some out →
      out.length = 80 ∧ out.take (5 : Int).toNat = [104, 101, 108, 108, 111] ∧
      out.getD (5 : Int).toNat 1 = 0 ∧
      cString out = cString [104, 101, 108, 108, 111])) :=
  ⟨by decide, by decide, by decide,
   stdout_read_contract (List.replicate 80 7) 5 [104, 101, 108, 108, 111]
     (by decide) (by decide) (by decide)⟩

/-! ## Block permutation lemmas (claim C7) -/

theorem flatMap_congr {α β : Type} {l : List α} {f g : α → List β}
    (h : ∀ a ∈ l, f a = g a) : l.flatMap f = l.flatMap g := by
  induction l with
  | nil => rfl
  | cons a l ih =>
    simp only [List.flatMap_cons]
    rw [h a (List.mem_cons_self a l), ih fun x hx => h x (List.mem_cons_of_mem a hx)]

theorem flatMap_getD_range {β : Type} (l : List Nat) (g : Nat → List β) :
    l.flatMap g = (List.range l.length).flatMap fun i => g (l.getD i 0) := by
  induction l with
  | nil => rfl
  | cons a l ih =>
    simp only [List.flatMap_cons, List.length_cons, List.range_succ_eq_map,
      List.flatMap_map]
    rw [show (a :: l).getD 0 0 = a from rfl]
    congr 1

theorem permuteChunk_length {α : Type} {bs n : Nat} {order : List Nat}
    {chunk : List α} (horder : ∀ o ∈ order, o < n)
    (hchunk : n * bs ≤ chunk.length) :
    (permuteChunk bs order chunk).length = order.length * bs := by
  induction order with
  | nil => simp [permuteChunk]
  | cons o os ih =>
    have ho : o < n := horder o (List.mem_cons_self o os)
    have hblock : ((chunk.drop (o * bs)).take bs).length = bs := by
      have hmul : (o + 1) * bs ≤ n * bs := Nat.mul_le_mul_right bs ho
      have h2 : o * bs + bs ≤ chunk.length := by
        calc o * bs + bs = (o + 1) * bs := by ring
          _ ≤ n * bs := hmul
          _ ≤ chunk.length := hchunk
      simp only [List.length_take, List.length_drop]
      omega
    simp only [permuteChunk, List.flatMap_cons, List.length_append]
    rw [hblock, show (os.flatMap fun o => (chunk.drop (o * bs)).take bs) =
        permuteChunk bs os chunk from rfl,
      ih fun x hx => horder x (List.mem_cons_of_mem o hx)]
    simp only [List.length_cons]
    ring

theorem getBlock_permuteChunk {α : Type} {bs n : Nat} {order : List Nat}
    {chunk : List α} (horder : ∀ o ∈ order, o < n)
    (hchunk : n * bs ≤ chunk.length) :
    ∀ k, k < order.length →
      ((permuteChunk bs order chunk).drop (k * bs)).take bs =
        (chunk.drop (order.getD k 0 * bs)).take bs := by
  induction order with
  | nil => intro k hk; simp at hk
  | cons o os ih =>
    intro k hk
    have ho : o < n := horder o (List.mem_cons_self o os)
    have hblock : ((chunk.drop (o * bs)).take bs).length = bs := by
      have hmul : (o + 1) * bs ≤ n * bs := Nat.mul_le_mul_right bs ho
      simp only [List.length_take, List.length_drop]
      have : o * bs + bs ≤ chunk.length := by
        calc o * bs + bs = (o + 1) * bs := by ring
          _ ≤ n * bs := hmul
          _ ≤ chunk.length := hchunk
      omega
    match k with
    | 0 =>
      simp only [permuteChunk, List.flatMap_cons, Nat.zero_mul, List.drop_zero,
        List.getD_cons_zero]
      exact List.take_left' hblock
    | k + 1 =>
      have hd : ((chunk.drop (o * bs)).take bs ++
          permuteChunk bs os chunk).drop ((k + 1) * bs) =
          (permuteChunk bs os chunk).drop (k * bs) := by
        have h1 : (k + 1) * bs = bs + k * bs := by ring
        rw [h1, ← List.drop_drop]
        congr 1
        exact List.drop_left' hblock
      simp only [permuteChunk, List.flatMap_cons]
      rw [show (os.flatMap fun o => (chunk.drop (o * bs)).take bs) =
          permuteChunk bs os chunk from rfl, hd, List.getD_cons_succ]
      exact ih (fun x hx => horder x (List.mem_cons_of_mem o hx)) k
        (by simpa using hk)

theorem chunk_join {α : Type} {bs : Nat} :
    ∀ (n : Nat) (chunk : List α), chunk.length = n * bs →
      ((List.range n).flatMap fun k => (chunk.drop (k * bs)).take bs) = chunk := by
  intro n
  induction n with
  | zero =>
    intro chunk h
    simp only [Nat.zero_mul] at h
    simp [List.length_eq_zero.mp h]
  | succ n ih =>
    intro chunk h
    rw [List.range_succ_eq_map]
    simp only [List.flatMap_cons, List.flatMap_map, Nat.zero_mul, List.drop_zero]
    have hstep : (List.range n).flatMap (fun k => (chunk.drop ((k + 1) * bs)).take bs) =
        (List.range n).flatMap fun k => ((chunk.drop bs).drop (k * bs)).take bs := by
      apply flatMap_congr
      intro k _
      rw [List.drop_drop]
      congr 2
      ring
    have hrest : (chunk.drop bs).length = n * bs := by
      simp only [List.length_drop, h]
      ring_nf
      omega
    calc chunk.take bs ++
          (List.range n).flatMap (fun k => (chunk.drop ((k + 1) * bs)).take bs) =
        chunk.take bs ++ (List.range n).flatMap
          (fun k => ((chunk.drop bs).drop (k * bs)).take bs) := by rw [hstep]
      _ = chunk.take bs ++ chunk.drop bs := by rw [ih _ hrest]
      _ = chunk := List.take_append_drop bs chunk

theorem permuteChunk_roundtrip {α : Type} {bs n : Nat} {order inv : List Nat}
    {chunk : List α} (horder : ∀ o ∈ order, o < n)
    (hinv : ∀ o ∈ inv, o < n) (hlo : order.length = n) (hli : inv.length = n)
    (hcomp : ∀ k < n, order.getD (inv.getD k 0) 0 = k)
    (hchunk : chunk.length = n * bs) :
    permuteChunk bs inv (permuteChunk bs order chunk) = chunk := by
  have hP1len : (permuteChunk bs order chunk).length = n * bs := by
    rw [permuteChunk_length horder (le_of_eq hchunk.symm), hlo]
  rw [show permuteChunk bs inv (permuteChunk bs order chunk) =
      inv.flatMap (fun o => ((permuteChunk bs order chunk).drop (o * bs)).take bs)
    from rfl]
  rw [flatMap_getD_range, hli]
  have hterm : ∀ k ∈ List.range n,
      (((permuteChunk bs order chunk).drop (inv.getD k 0 * bs)).take bs) =
        (chunk.drop (k * bs)).take bs := by
    intro k hk
    have hkn : k < n := List.mem_range.mp hk
    have hik : inv.getD k 0 ∈ inv := by
      have : k < inv.length := by omega
      rw [List.getD_eq_getElem _ _ this]
      exact List.getElem_mem this
    have hio : inv.getD k 0 < order.length := by
      rw [hlo]
      exact hinv _ hik
    rw [getBlock_permuteChunk horder (le_of_eq hchunk.symm) _ hio, hcomp k hkn]
  rw [flatMap_congr hterm]
  exact chunk_join n chunk hchunk

theorem permuteFuel_nil {α : Type} (bs : Nat) (order : List Nat) :
    ∀ fuel, permuteFuel bs order fuel ([] : List α) = [] := by
  intro fuel
  cases fuel <;> simp [permuteFuel]

theorem permuteFuel_length {α : Type} {bs : Nat} {order : List Nat}
    (horder : ∀ o ∈ order, o < order.length) (hc : 0 < bs * order.length) :
    ∀ (fuel : Nat) (data : List α), data.length ≤ fuel →
      (bs * order.length) ∣ data.length →
      (permuteFuel bs order fuel data).length = data.length := by
  intro fuel
  induction fuel with
  | zero =>
    intro data h _
    have hdnil : data = [] := List.length_eq_zero.mp (by omega)
    subst hdnil
    rw [permuteFuel_nil]
  | succ fuel ih =>
    intro data hlen hdvd
    by_cases hde : data.isEmpty
    · rw [List.isEmpty_iff.mp hde, permuteFuel_nil]
    · have hpos : 0 < data.length := by
        cases data
        · simp at hde
        · simp
      have hcle : bs * order.length ≤ data.length := Nat.le_of_dvd hpos hdvd
      have htk : (data.take (bs * order.length)).length = bs * order.length := by
        simp only [List.length_take]
        omega
      have hchunk : (permuteChunk bs order (data.take (bs * order.length))).length =
          bs * order.length := by
        rw [permuteChunk_length horder (by rw [htk, Nat.mul_comm])]
        exact Nat.mul_comm _ _
      have hdroplen : (data.drop (bs * order.length)).length =
          data.length - bs * order.length := List.length_drop _ _
      have hstep : permuteFuel bs order (fuel + 1) data =
          permuteChunk bs order (data.take (bs * order.length)) ++
            permuteFuel bs order fuel (data.drop (bs * order.length)) := by
        show (if data.isEmpty then [] else _) = _
        rw [if_neg (by simp [hde])]
      rw [hstep]
      simp only [List.length_append, hchunk]
      rw [ih (data.drop (bs * order.length)) (by rw [hdroplen]; omega)
        (by rw [hdroplen]; exact Nat.dvd_sub' hdvd dvd_rfl), hdroplen]
      omega

theorem permuteFuel_roundtrip {α : Type} {bs : Nat} {order inv : List Nat}
    (horder : ∀ o ∈ order, o < order.length)
    (hinv : ∀ o ∈ inv, o < order.length)
    (hli : inv.length = order.length)
    (hcomp : ∀ k < order.length, order.getD (inv.getD k 0) 0 = k)
    (hc : 0 < bs * order.length) :
    ∀ (fuel1 fuel2 : Nat) (data : List α), data.length ≤ fuel1 →
      data.length ≤ fuel2 → (bs * order.length) ∣ data.length →
      permuteFuel bs inv fuel2 (permuteFuel bs order fuel1 data) = data := by
  have hcinv : bs * inv.length = bs * order.length := by rw [hli]
  intro fuel1
  induction fuel1 with
  | zero =>
    intro fuel2 data h _ _
    have hdnil : data = [] := List.length_eq_zero.mp (by omega)
    subst hdnil
    rw [permuteFuel_nil, permuteFuel_nil]
  | succ fuel1 ih =>
    intro fuel2 data hlen1 hlen2 hdvd
    by_cases hde : data.isEmpty
    · rw [List.isEmpty_iff.mp hde, permuteFuel_nil, permuteFuel_nil]
    · have hpos : 0 < data.length := by
        cases data
        · simp at hde
        · simp
      have hcle : bs * order.length ≤ data.length := Nat.le_of_dvd hpos hdvd
      have htk : (data.take (bs * order.length)).length = bs * order.length := by
        simp only [List.length_take]
        omega
      have hchunkOut : (permuteChunk bs order (data.take (bs * order.length))).length =
          bs * order.length := by
        rw [permuteChunk_length horder (by rw [htk, Nat.mul_comm])]
        exact Nat.mul_comm _ _
      have hdroplen : (data.drop (bs * order.length)).length =
          data.length - bs * order.length := List.length_drop _ _
      have hdvdrest : (bs * order.length) ∣ (data.drop (bs * order.length)).length := by
        rw [hdroplen]
        exact Nat.dvd_sub' hdvd dvd_rfl
      have hrestlen : (permuteFuel bs order fuel1 (data.drop (bs * order.length))).length =
          data.length - bs * order.length := by
        rw [permuteFuel_length horder hc fuel1 _ (by rw [hdroplen]; omega) hdvdrest]
        exact hdroplen
      have hstep1 : permuteFuel bs order (fuel1 + 1) data =
          permuteChunk bs order (data.take (bs * order.length)) ++
            permuteFuel bs order fuel1 (data.drop (bs * order.length)) := by
        show (if data.isEmpty then [] else _) = _
        rw [if_neg (by simp [hde])]
      rw [hstep1]
      cases fuel2 with
      | zero => omega
      | succ fuel2 =>
        have hne2 : ¬(permuteChunk bs order (data.take (bs * order.length)) ++
            permuteFuel bs order fuel1 (data.drop (bs * order.length))).isEmpty = true := by
          rw [List.isEmpty_iff_length_eq_zero]
          simp only [List.length_append, hchunkOut, hrestlen]
          omega
        have hstep2 : permuteFuel bs inv (fuel2 + 1)
            (permuteChunk bs order (data.take (bs * order.length)) ++
              permuteFuel bs order fuel1 (data.drop (bs * order.length))) =
            permuteChunk bs inv ((permuteChunk bs order (data.take (bs * order.length)) ++
              permuteFuel bs order fuel1 (data.drop (bs * order.length))).take
                (bs * inv.length)) ++
            permuteFuel bs inv fuel2
              ((permuteChunk bs order (data.take (bs * order.length)) ++
                permuteFuel bs order fuel1 (data.drop (bs * order.length))).drop
                  (bs * inv.length)) := by
          show (if _ then [] else _) = _
          rw [if_neg hne2]
        rw [hstep2, hcinv, List.take_left' hchunkOut, List.drop_left' hchunkOut]
        rw [permuteChunk_roundtrip horder hinv rfl hli hcomp
          (htk.trans (Nat.mul_comm bs order.length))]
        rw [ih fuel2 (data.drop (bs * order.length)) (by rw [hdroplen]; omega)
          (by rw [hdroplen]; omega) hdvdrest]
        exact List.take_append_drop _ data

/-- Full round trip of the byte-block permutation: permuting by `order`
and then by its computed inverse restores any array whose length the
process chunk size divides. -/
theorem permute_roundtrip {α : Type} {bs : Nat} {order inv : List Nat}
    (horder : ∀ o ∈ order, o < order.length)
    (hinv : ∀ o ∈ inv, o < order.length)
    (hli : inv.length = order.length)
    (hcomp : ∀ k < order.length, order.getD (inv.getD k 0) 0 = k)
    (hc : 0 < bs * order.length) (data : List α)
    (hdvd : (bs * order.length) ∣ data.length) :
    permute bs inv (permute bs order data) = data := by
  rw [permute, permute,
    permuteFuel_length horder hc data.length data le_rfl hdvd]
  exact permuteFuel_roundtrip horder hinv hli hcomp hc data.length data.length data
    le_rfl le_rfl hdvd

theorem permuteChunk_map {α β : Type} (f : α → β) (bs : Nat) (order : List Nat)
    (chunk : List α) :
    permuteChunk bs order (chunk.map f) = (permuteChunk bs order chunk).map f := by
  induction order with
  | nil => rfl
  | cons o os ih =>
    simp only [permuteChunk, List.flatMap_cons, List.map_append] at ih ⊢
    rw [← List.map_drop, ← List.map_take, ih]

theorem permuteFuel_map {α β : Type} (f : α → β) (bs : Nat) (order : List Nat) :
    ∀ (fuel : Nat) (data : List α),
      permuteFuel bs order fuel (data.map f) = (permuteFuel bs order fuel data).map f := by
  intro fuel
  induction fuel with
  | zero => intro data; rfl
  | succ fuel ih =>
    intro data
    by_cases hde : data.isEmpty
    · rw [List.isEmpty_iff.mp hde]
      rfl
    · have h1 : permuteFuel bs order (fuel + 1) (data.map f) =
          permuteChunk bs order ((data.map f).take (bs * order.length)) ++
            permuteFuel bs order fuel ((data.map f).drop (bs * order.length)) := by
        show (if _ then [] else _) = _
        rw [if_neg (by simpa using hde)]
      have h2 : permuteFuel bs order (fuel + 1) data =
          permuteChunk bs order (data.take (bs * order.length)) ++
            permuteFuel bs order fuel (data.drop (bs * order.length)) := by
        show (if _ then [] else _) = _
        rw [if_neg (by simpa using hde)]
      rw [h1, h2, List.map_append, ← List.map_take, ← List.map_drop, ih,
        permuteChunk_map]

theorem permute_map {α β : Type} (f : α → β) (bs : Nat) (order : List Nat)
    (data : List α) :
    permute bs order (data.map f) = (permute bs order data).map f := by
  rw [permute, permute, List.length_map]
  exact permuteFuel_map f bs order data.length data

theorem wrap16_tdiv_even {x : Int} (he : x % 2 = 0) (h1 : -32768 ≤ x)
    (h2 : x < 32768) : wrap16 (2 * x.tdiv 2) = x := by
  have h3 : x.tmod 2 = 0 :=
    Int.tmod_eq_zero_of_dvd (Int.dvd_of_emod_eq_zero he)
  have h4 := Int.tmod_add_tdiv x 2
  unfold wrap16 wrapC
  omega

theorem scale_up_scale_down {l : List Int}
    (h : ∀ x ∈ l, x % 2 = 0 ∧ -32768 ≤ x ∧ x < 32768) :
    scale_up (scale_down l) = l := by
  induction l with
  | nil => rfl
  | cons a l ih =>
    obtain ⟨he, h1, h2⟩ := h a (List.mem_cons_self a l)
    simp only [scale_up, scale_down, List.map_cons] at ih ⊢
    rw [wrap16_tdiv_even he h1 h2, ih fun x hx => h x (List.mem_cons_of_mem a hx)]

/-- The composition applied to biases and weights by a save immediately
followed by a load (and equally by the in-memory restore after a save):
unpermute, halve, re-permute, double. Restores the array exactly when its
values are the even in-range `int16` lanes a load produces. -/
theorem serialization_core (order : List Nat)
    (h1 : ∀ o ∈ invert_permutation order, o < (invert_permutation order).length)
    (h2 : ∀ o ∈ order, o < (invert_permutation order).length)
    (h3 : order.length = (invert_permutation order).length)
    (h4 : ∀ k < (invert_permutation order).length,
      (invert_permutation order).getD (order.getD k 0) 0 = k)
    (h5 : (invert_permutation order).length = 8)
    (l : List Int) (hl : ∀ x ∈ l, x % 2 = 0 ∧ -32768 ≤ x ∧ x < 32768)
    (hd : 64 ∣ l.length) :
    scale_up (permute 8 order (scale_down
      (permute 8 (invert_permutation order) l))) = l := by
  rw [show scale_down (permute 8 (invert_permutation order) l) =
      (permute 8 (invert_permutation order) l).map (fun x => x.tdiv 2) from rfl,
    ← permute_map,
    permute_roundtrip h1 h2 h3 h4 (by omega)
      (l.map fun x => x.tdiv 2) (by rw [List.length_map, h5]; simpa using hd)]
  exact scale_up_scale_down hl

/-! ## Claim C7: permutation round trip and serialization -/

/-- C7 counterexample: the AVX-512 `PackusEpi16Order` table
`[0, 2, 4, 6, 1, 3, 5, 7]` is **not** self-inverse — its inverse computed
by `invert_permutation` is the different table `[0, 4, 1, 5, 2, 6, 3, 7]`,
and applying `permute` twice with the table does not restore a concrete
array. -/
theorem packus_not_self_inverse :
    invert_permutation PackusEpi16OrderAVX512 ≠ PackusEpi16OrderAVX512 ∧
    permute 1 PackusEpi16OrderAVX512
      (permute 1 PackusEpi16OrderAVX512 [0, 1, 2, 3, 4, 5, 6, 7]) ≠
      ([0, 1, 2, 3, 4, 5, 6, 7] : List Nat) := by
  decide

/-- C7 (amended): for each configuration's `PackusEpi16Order` table,
applying `permute` with the table and then with its inverse computed by
`invert_permutation` restores any suitably sized array exactly (the table
round-trips with its computed inverse — it need not be self-inverse), and
`write_parameters` immediately followed by `read_parameters` (each
wrapping the block permutation and the 2x integer rescale symmetrically
around the stream transfer) reproduces the in-memory parameters, as does
the in-memory restore performed at the end of `write_parameters` itself,
for the even in-range `int16` lane values that loading produces. -/
theorem packus_roundtrip_and_serialization (order : List Nat)
    (horder : order = PackusEpi16OrderAVX512 ∨ order = PackusEpi16OrderAVX2 ∨
      order = PackusEpi16OrderOther) :
    (∀ (bs : Nat) (data : List Int), 0 < bs → (bs * 8) ∣ data.length →
      permute bs (invert_permutation order) (permute bs order data) = data) ∧
    (∀ p : FTParams,
      (∀ x ∈ p.biases, x % 2 = 0 ∧ -32768 ≤ x ∧ x < 32768) →
      (∀ x ∈ p.weights, x % 2 = 0 ∧ -32768 ≤ x ∧ x < 32768) →
      64 ∣ p.biases.length → 64 ∣ p.weights.length →
      (write_parameters order (invert_permutation order) p).2 = p ∧
      read_parameters order
        (write_parameters order (invert_permutation order) p).1.1
        (write_parameters order (invert_permutation order) p).1.2.1
        (write_parameters order (invert_permutation order) p).1.2.2 = p) := by
  have hmain : (∀ o ∈ order, o < order.length) ∧
      (∀ o ∈ invert_permutation order, o < order.length) ∧
      ((invert_permutation order).length = order.length) ∧
      (∀ k < order.length, order.getD ((invert_permutation order).getD k 0) 0 = k) ∧
      (∀ o ∈ invert_permutation order, o < (invert_permutation order).length) ∧
      (∀ o ∈ order, o < (invert_permutation order).length) ∧
      (order.length = (invert_permutation order).length) ∧
      (∀ k < (invert_permutation order).length,
        (invert_permutation order).getD (order.getD k 0) 0 = k) ∧
      ((invert_permutation order).length = 8) ∧ (order.length = 8) := by
    rcases horder with rfl | rfl | rfl
    · exact ⟨by decide, by decide, by decide, by decide, by decide, by decide,
        by decide, by decide, by decide, by decide⟩
    · exact ⟨by decide, by decide, by decide, by decide, by decide, by decide,
        by decide, by decide, by decide, by decide⟩
    · exact ⟨by decide, by decide, by decide, by decide, by decide, by decide,
        by decide, by decide, by decide, by decide⟩
  obtain ⟨m1, m2, m3, m4, m5, m6, m7, m8, m9, m10⟩ := hmain
  constructor
  · intro bs data hbs hdvd
    exact permute_roundtrip m1 m2 m3 m4 (by rw [m10]; omega) data (by rw [m10]; exact hdvd)
  · intro p heb hew hdb hdw
    have hb := serialization_core order m5 m6 m7 m8 m9 p.biases heb hdb
    have hw := serialization_core order m5 m6 m7 m8 m9 p.weights hew hdw
    constructor
    · rw [show (write_parameters order (invert_permutation order) p).2 =
          { biases := scale_up (permute 8 order (scale_down
              (permute 8 (invert_permutation order) p.biases))),
            weights := scale_up (permute 8 order (scale_down
              (permute 8 (invert_permutation order) p.weights))),
            psqtWeights := p.psqtWeights } from rfl, hb, hw]
    · rw [show read_parameters order
          (write_parameters order (invert_permutation order) p).1.1
          (write_parameters order (invert_permutation order) p).1.2.1
          (write_parameters order (invert_permutation order) p).1.2.2 =
          { biases := scale_up (permute 8 order (scale_down
              (permute 8 (invert_permutation order) p.biases))),
            weights := scale_up (permute 8 order (scale_down
              (permute 8 (invert_permutation order) p.weights))),
            psqtWeights := p.psqtWeights } from rfl, hb, hw]

/-- Witness for the amended C7 at the AVX2 order, a concrete 8-element
array and concrete 64-lane parameter arrays. -/
theorem packus_roundtrip_and_serialization_witness :
    (PackusEpi16OrderAVX2 = PackusEpi16OrderAVX512 ∨
     PackusEpi16OrderAVX2 = PackusEpi16OrderAVX2 ∨
     PackusEpi16OrderAVX2 = PackusEpi16OrderOther) ∧
    ((∀ (bs : Nat) (data : List Int), 0 < bs → (bs * 8) ∣ data.length →
      permute bs (invert_permutation PackusEpi16OrderAVX2)
        (permute bs PackusEpi16OrderAVX2 data) = data) ∧
    (∀ p : FTParams,
      (∀ x ∈ p.biases, x % 2 = 0 ∧ -32768 ≤ x ∧ x < 32768) →
      (∀ x ∈ p.weights, x % 2 = 0 ∧ -32768 ≤ x ∧ x < 32768) →
      64 ∣ p.biases.length → 64 ∣ p.weights.length →
      (write_parameters PackusEpi16OrderAVX2
        (invert_permutation PackusEpi16OrderAVX2) p).2 = p ∧
      read_parameters PackusEpi16OrderAVX2
        (write_parameters PackusEpi16OrderAVX2
          (invert_permutation PackusEpi16OrderAVX2) p).1.1
        (write_parameters PackusEpi16OrderAVX2
          (invert_permutation PackusEpi16OrderAVX2) p).1.2.1
        (write_parameters PackusEpi16OrderAVX2
          (invert_permutation PackusEpi16OrderAVX2) p).1.2.2 = p)) :=
  ⟨Or.inr (Or.inl rfl),
   packus_roundtrip_and_serialization PackusEpi16OrderAVX2 (Or.inr (Or.inl rfl))⟩

/-! ## Wrapped-arithmetic and fold lemmas for the accumulator -/

theorem wrap16_add_left (x y : Int) : wrap16 (wrap16 x + y) = wrap16 (x + y) := by
  unfold wrap16 wrapC
  omega

theorem wrap16_sub_left (x y : Int) : wrap16 (wrap16 x - y) = wrap16 (x - y) := by
  unfold wrap16 wrapC
  omega

theorem wrap32_add_left (x y : Int) : wrap32 (wrap32 x + y) = wrap32 (x + y) := by
  unfold wrap32 wrapC
  omega

theorem wrap32_sub_left (x y : Int) : wrap32 (wrap32 x - y) = wrap32 (x - y) := by
  unfold wrap32 wrapC
  omega

theorem foldl_wrap_add (W : Int → Int)
    (habs : ∀ x y, W (W x + y) = W (x + y)) (g : Nat → Int) :
    ∀ (l : List Nat) (x : Int),
      l.foldl (fun v idx => W (v + g idx)) (W x) = W (x + (l.map g).sum) := by
  intro l
  induction l with
  | nil => intro x; simp
  | cons a l ih =>
    intro x
    simp only [List.foldl_cons, List.map_cons, List.sum_cons]
    rw [habs, ih]
    ring_nf

theorem foldl_wrap_sub (W : Int → Int)
    (habs : ∀ x y, W (W x - y) = W (x - y)) (g : Nat → Int) :
    ∀ (l : List Nat) (x : Int),
      l.foldl (fun v idx => W (v - g idx)) (W x) = W (x - (l.map g).sum) := by
  intro l
  induction l with
  | nil => intro x; simp
  | cons a l ih =>
    intro x
    simp only [List.foldl_cons, List.map_cons, List.sum_cons]
    rw [habs, ih]
    ring_nf

theorem count_bitIndices {n : Nat} (x : Nat) (hn : n < 2 ^ 128) :
    (bitIndices n).count x = if n.testBit x then 1 else 0 := by
  by_cases h : n.testBit x
  · rw [if_pos h]
    exact List.count_eq_one_of_mem (bitIndices_nodup n) ((mem_bitIndices hn).mpr h)
  · rw [if_neg h]
    exact List.count_eq_zero_of_not_mem fun hm => h ((mem_bitIndices hn).mp hm)

theorem ldiff_lt {a : Nat} (b : Nat) (ha : a < 2 ^ 128) :
    Nat.ldiff a b < 2 ^ 128 := by
  apply Nat.lt_pow_two_of_testBit
  intro i hi
  rw [Nat.testBit_ldiff]
  rw [Nat.testBit_lt_two_pow (lt_of_lt_of_le ha (Nat.pow_le_pow_right (by omega) hi))]
  rfl

/-- The bitboard-diff identity behind the refresh path: the old squares
plus the added squares are the new squares plus the removed squares, as
multisets. -/
theorem bitms_diff {a b : Nat} (ha : a < 2 ^ 128) (hb : b < 2 ^ 128) :
    ((bitIndices a : Multiset Nat) + (bitIndices (Nat.ldiff b a) : Multiset Nat)) =
      ((bitIndices b : Multiset Nat) + (bitIndices (Nat.ldiff a b) : Multiset Nat)) := by
  ext x
  simp only [Multiset.count_add, Multiset.coe_count]
  rw [count_bitIndices x ha, count_bitIndices x hb,
    count_bitIndices x (ldiff_lt a hb), count_bitIndices x (ldiff_lt b ha),
    Nat.testBit_ldiff, Nat.testBit_ldiff]
  cases a.testBit x <;> cases b.testBit x <;> rfl

theorem overPairs_add_eq {g h g' h' : Color → PieceType → List Nat}
    (H : ∀ c pt, ((g c pt : Multiset Nat) + (h c pt : Multiset Nat)) =
      ((g' c pt : Multiset Nat) + (h' c pt : Multiset Nat))) :
    ((overPairs g : Multiset Nat) + (overPairs h : Multiset Nat)) =
      ((overPairs g' : Multiset Nat) + (overPairs h' : Multiset Nat)) := by
  have aux : ∀ L : List (Color × PieceType),
      (((L.flatMap fun p => g p.1 p.2) : Multiset Nat) +
        ((L.flatMap fun p => h p.1 p.2) : Multiset Nat)) =
      (((L.flatMap fun p => g' p.1 p.2) : Multiset Nat) +
        ((L.flatMap fun p => h' p.1 p.2) : Multiset Nat)) := by
    intro L
    induction L with
    | nil => rfl
    | cons p L ih =>
      simp only [List.flatMap_cons, ← Multiset.coe_add]
      calc ((g p.1 p.2 : Multiset Nat) + (L.flatMap fun p => g p.1 p.2)) +
            ((h p.1 p.2 : Multiset Nat) + (L.flatMap fun p => h p.1 p.2)) =
          ((g p.1 p.2 : Multiset Nat) + (h p.1 p.2 : Multiset Nat)) +
            (((L.flatMap fun p => g p.1 p.2) : Multiset Nat) +
              ((L.flatMap fun p => h p.1 p.2) : Multiset Nat)) := by
            rw [add_add_add_comm]
        _ = ((g' p.1 p.2 : Multiset Nat) + (h' p.1 p.2 : Multiset Nat)) +
            (((L.flatMap fun p => g' p.1 p.2) : Multiset Nat) +
              ((L.flatMap fun p => h' p.1 p.2) : Multiset Nat)) := by
            rw [H p.1 p.2, ih]
        _ = ((g' p.1 p.2 : Multiset Nat) + (L.flatMap fun p => g' p.1 p.2)) +
            ((h' p.1 p.2 : Multiset Nat) + (L.flatMap fun p => h' p.1 p.2)) := by
            rw [add_add_add_comm]
  exact aux colorTypePairs

theorem testBit_foldl_or {α : Type} {f : α → Nat} {i : Nat} :
    ∀ (l : List α) (n : Nat),
      ((l.foldl (fun acc x => acc ||| f x) n).testBit i = true) ↔
        (n.testBit i = true ∨ ∃ x ∈ l, (f x).testBit i = true) := by
  intro l
  induction l with
  | nil => intro n; simp
  | cons a l ih =>
    intro n
    simp only [List.foldl_cons, ih, Nat.testBit_lor, Bool.or_eq_true,
      List.mem_cons]
    constructor
    · rintro ((h | h) | ⟨x, hx, h⟩)
      · exact Or.inl h
      · exact Or.inr ⟨a, Or.inl rfl, h⟩
      · exact Or.inr ⟨x, Or.inr hx, h⟩
    · rintro (h | ⟨x, (rfl | hx), h⟩)
      · exact Or.inl (Or.inl h)
      · exact Or.inl (Or.inr h)
      · exact Or.inr ⟨x, hx, h⟩

theorem byColor_and_byType {bd : XBoard} (hwf : WFX bd) (c : Color)
    (pt : PieceType) : byColorOf bd c &&& byTypeOf bd pt = bd c pt := by
  obtain ⟨hlt, hdisj⟩ := hwf
  have hdisj' : ∀ i c1 pt1 c2 pt2, (c1, pt1) ≠ (c2, pt2) →
      ¬((bd c1 pt1).testBit i = true ∧ (bd c2 pt2).testBit i = true) := by
    intro i c1 pt1 c2 pt2 hne ⟨hb1, hb2⟩
    have := congrArg (Nat.testBit · i) (hdisj c1 pt1 c2 pt2 hne)
    simp only [Nat.testBit_land, Nat.zero_testBit, hb1, hb2] at this
    simp at this
  apply Nat.eq_of_testBit_eq
  intro i
  have hchar : ((byColorOf bd c &&& byTypeOf bd pt).testBit i = true) ↔
      ((bd c pt).testBit i = true) := by
    rw [Nat.testBit_land, Bool.and_eq_true]
    constructor
    · rintro ⟨h1, h2⟩
      obtain ⟨pt', _, h1⟩ := ((testBit_foldl_or allPieceTypes 0).mp h1).resolve_left
        (by simp)
      have h2' : ∃ c', (bd c' pt).testBit i = true := by
        rw [byTypeOf, Nat.testBit_lor, Bool.or_eq_true] at h2
        rcases h2 with h | h
        · exact ⟨.WHITE, h⟩
        · exact ⟨.BLACK, h⟩
      obtain ⟨c', h2⟩ := h2'
      by_cases hpp : pt' = pt
      · subst hpp
        exact h1
      · exact absurd ⟨h1, h2⟩
          (hdisj' i c pt' c' pt fun heq => hpp (congrArg Prod.snd heq))
    · intro h
      constructor
      · exact (testBit_foldl_or allPieceTypes 0).mpr
          (Or.inr ⟨pt, by cases pt <;> simp [allPieceTypes], h⟩)
      · rw [byTypeOf, Nat.testBit_lor, Bool.or_eq_true]
        cases c
        · exact Or.inl h
        · exact Or.inr h
  cases hgoal : (bd c pt).testBit i
  · cases hres : (byColorOf bd c &&& byTypeOf bd pt).testBit i
    · rfl
    · exact absurd (hchar.mp hres) (by rw [hgoal]; simp)
  · exact hchar.mpr hgoal

theorem sum_of_multiset_eq (g : Nat → Int) {l1 l2 a r : List Nat}
    (h : (l1 : Multiset Nat) + (a : Multiset Nat) =
      (l2 : Multiset Nat) + (r : Multiset Nat)) :
    (l1.map g).sum + (a.map g).sum = (l2.map g).sum + (r.map g).sum := by
  have h2 := congrArg (fun m : Multiset Nat => (m.map g).sum) h
  simpa using h2

/-- The bitboard diff computed by the refresh path is an exact feature
delta from the snapshot board to the current board. -/
theorem featsDiff (ctx : NNCtx) {entry : CacheEntry} {bd0 bd : XBoard}
    (h0 : WFX bd0) (hbd : WFX bd)
    (hcol : ∀ c, entry.byColorBB c = byColorOf bd0 c)
    (htyp : ∀ pt, entry.byTypeBB pt = byTypeOf bd0 pt) :
    ((featsL ctx bd0 : Multiset Nat) + (refreshAdded ctx entry bd : Multiset Nat)) =
      ((featsL ctx bd : Multiset Nat) +
        (refreshRemoved ctx entry bd : Multiset Nat)) := by
  rw [featsL, featsL, refreshAdded, refreshRemoved]
  apply overPairs_add_eq
  intro c pt
  have hold : entry.byColorBB c &&& entry.byTypeBB pt = bd0 c pt := by
    rw [hcol, htyp]
    exact byColor_and_byType h0 c pt
  rw [hold]
  have h128 : ∀ {x : Nat}, x < 2 ^ 90 → x < 2 ^ 128 := fun hx =>
    lt_of_lt_of_le hx (Nat.pow_le_pow_right (by omega) (by omega))
  have hb0 : bd0 c pt < 2 ^ 128 := h128 (h0.1 c pt)
  have hb : bd c pt < 2 ^ 128 := h128 (hbd.1 c pt)
  have hdiff := bitms_diff hb0 hb
  have := congrArg (fun m : Multiset Nat => m.map (ctx.mkIdx c pt)) hdiff
  simpa using this

/-- `incStep` always equals the remove-fold followed by the add-fold. -/
theorem incStep_apply (ctx : NNCtx) (accIn : Nat → Int) (removed added : List Nat)
    (lane : Nat) :
    incStep ctx accIn removed added lane =
      added.foldl (fun v idx => wrap16 (v + ctx.weights idx lane))
        (removed.foldl (fun v idx => wrap16 (v - ctx.weights idx lane))
          (accIn lane)) := by
  rw [incStep]
  split
  · rename_i hcase
    obtain ⟨hr, ha⟩ := Bool.and_eq_true_iff.mp hcase
    rw [List.isEmpty_iff.mp hr, List.isEmpty_iff.mp ha]
    rfl
  · rfl

theorem incPsqtStep_apply (ctx : NNCtx) (psqtIn : Nat → Int)
    (removed added : List Nat) (b : Nat) :
    incPsqtStep ctx psqtIn removed added b =
      added.foldl (fun v idx => wrap32 (v + ctx.psqtWeights idx b))
        (removed.foldl (fun v idx => wrap32 (v - ctx.psqtWeights idx b))
          (psqtIn b)) := by
  rw [incPsqtStep]
  split
  · rename_i hcase
    obtain ⟨hr, ha⟩ := Bool.and_eq_true_iff.mp hcase
    rw [List.isEmpty_iff.mp hr, List.isEmpty_iff.mp ha]
    rfl
  · rfl

/-- Applying a subtract-fold then an add-fold of weight columns over a
reference accumulator value yields the reference value of the delta'd
feature multiset (lane version). -/
theorem fold_delta_acc (ctx : NNCtx) {feats1 feats2 removed added : List Nat}
    (hdelta : (feats1 : Multiset Nat) + (added : Multiset Nat) =
      (feats2 : Multiset Nat) + (removed : Multiset Nat)) (base : Int) (lane : Nat) :
    added.foldl (fun v idx => wrap16 (v + ctx.weights idx lane))
      (removed.foldl (fun v idx => wrap16 (v - ctx.weights idx lane))
        (wrap16 (base + sumW (fun idx => ctx.weights idx lane) feats1))) =
      wrap16 (base + sumW (fun idx => ctx.weights idx lane) feats2) := by
  rw [foldl_wrap_sub wrap16 wrap16_sub_left _ removed,
    foldl_wrap_add wrap16 wrap16_add_left _ added]
  have hsum := sum_of_multiset_eq (fun idx => ctx.weights idx lane) hdelta
  simp only [sumW] at hsum ⊢
  congr 1
  omega

/-- PSQT version of `fold_delta_acc`. -/
theorem fold_delta_psqt (ctx : NNCtx) {feats1 feats2 removed added : List Nat}
    (hdelta : (feats1 : Multiset Nat) + (added : Multiset Nat) =
      (feats2 : Multiset Nat) + (removed : Multiset Nat)) (base : Int) (b : Nat) :
    added.foldl (fun v idx => wrap32 (v + ctx.psqtWeights idx b))
      (removed.foldl (fun v idx => wrap32 (v - ctx.psqtWeights idx b))
        (wrap32 (base + sumW (fun idx => ctx.psqtWeights idx b) feats1))) =
      wrap32 (base + sumW (fun idx => ctx.psqtWeights idx b) feats2) := by
  rw [foldl_wrap_sub wrap32 wrap32_sub_left _ removed,
    foldl_wrap_add wrap32 wrap32_add_left _ added]
  have hsum := sum_of_multiset_eq (fun idx => ctx.psqtWeights idx b) hdelta
  simp only [sumW] at hsum ⊢
  congr 1
  omega

/-- Correctness of one incremental step: if the input accumulator
reflects the old board and the delta is exact, the output reflects the
new board. -/
theorem incStep_ground (ctx : NNCtx) {bdOld bdNew : XBoard}
    {removed added : List Nat}
    (hdelta : (featsL ctx bdOld : Multiset Nat) + (added : Multiset Nat) =
      (featsL ctx bdNew : Multiset Nat) + (removed : Multiset Nat))
    {accIn : Nat → Int} (hacc : ∀ lane, accIn lane = groundAcc ctx bdOld lane)
    (lane : Nat) :
    incStep ctx accIn removed added lane = groundAcc ctx bdNew lane := by
  rw [incStep_apply ctx accIn removed added lane, hacc lane]
  simp only [groundAcc]
  exact fold_delta_acc ctx hdelta (ctx.biases lane) lane

theorem incPsqtStep_ground (ctx : NNCtx) {bdOld bdNew : XBoard}
    {removed added : List Nat}
    (hdelta : (featsL ctx bdOld : Multiset Nat) + (added : Multiset Nat) =
      (featsL ctx bdNew : Multiset Nat) + (removed : Multiset Nat))
    {psqtIn : Nat → Int} (hpsqt : ∀ b, psqtIn b = groundPsqt ctx bdOld b)
    (b : Nat) :
    incPsqtStep ctx psqtIn removed added b = groundPsqt ctx bdNew b := by
  rw [incPsqtStep_apply ctx psqtIn removed added b, hpsqt b]
  simp only [groundPsqt]
  have h := fold_delta_psqt ctx hdelta 0 b
  simpa using h

/-- Correctness of the refresh path: from a valid cache entry it computes
exactly the reference accumulator of the current board, and the updated
entry satisfies the cache invariant for the current board. -/
theorem refresh_ground (ctx : NNCtx) {entry : CacheEntry} {bd0 bd : XBoard}
    (hent : entryReflects ctx entry bd0) (hbd : WFX bd) :
    (∀ lane, (update_accumulator_refresh ctx entry bd).2.1 lane =
      groundAcc ctx bd lane) ∧
    (∀ b, (update_accumulator_refresh ctx entry bd).2.2 b =
      groundPsqt ctx bd b) ∧
    entryReflects ctx (update_accumulator_refresh ctx entry bd).1 bd := by
  obtain ⟨h0, hcol, htyp, hacc, hpsqt⟩ := hent
  have hdelta := featsDiff ctx h0 hbd hcol htyp
  have hlane : ∀ lane, (update_accumulator_refresh ctx entry bd).2.1 lane =
      groundAcc ctx bd lane := by
    intro lane
    rw [show (update_accumulator_refresh ctx entry bd).2.1 lane =
        (refreshAdded ctx entry bd).foldl
          (fun v idx => wrap16 (v + ctx.weights idx lane))
          ((refreshRemoved ctx entry bd).foldl
            (fun v idx => wrap16 (v - ctx.weights idx lane))
            (entry.accumulation lane)) from rfl, hacc lane]
    simp only [groundAcc]
    exact fold_delta_acc ctx hdelta (ctx.biases lane) lane
  have hpl : ∀ b, (update_accumulator_refresh ctx entry bd).2.2 b =
      groundPsqt ctx bd b := by
    intro b
    rw [show (update_accumulator_refresh ctx entry bd).2.2 b =
        (refreshAdded ctx entry bd).foldl
          (fun v idx => wrap32 (v + ctx.psqtWeights idx b))
          ((refreshRemoved ctx entry bd).foldl
            (fun v idx => wrap32 (v - ctx.psqtWeights idx b))
            (entry.psqtAccumulation b)) from rfl, hpsqt b]
    simp only [groundPsqt]
    have h := fold_delta_psqt ctx hdelta 0 b
    simpa using h
  refine ⟨hlane, hpl, hbd, fun c => rfl, fun pt => rfl, ?_, ?_⟩
  · intro lane
    rw [show (update_accumulator_refresh ctx entry bd).1.accumulation lane =
        (update_accumulator_refresh ctx entry bd).2.1 lane from rfl]
    exact hlane lane
  · intro b
    rw [show (update_accumulator_refresh ctx entry bd).1.psqtAccumulation b =
        (update_accumulator_refresh ctx entry bd).2.2 b from rfl]
    exact hpl b

theorem headD_eq_getD_zero (l : List SRec) (d : SRec) : l.headD d = l.getD 0 d := by
  cases l <;> rfl

/-- The forward walk of `update_accumulator_incremental`: starting from a
computed, correct record `k` steps back and exact per-move deltas, it
leaves records from `k` on unchanged, preserves every record's board and
move data, and makes every record up to the current one computed and
correct. -/
theorem update_accumulator_incremental_spec (ctx : NNCtx) :
    ∀ (k : Nat) (chain : List SRec), k < chain.length →
      ((chain.getD k default).computed = true) →
      reflects ctx (chain.getD k default) →
      validDeltas ctx chain →
      ((update_accumulator_incremental ctx k chain).length = chain.length) ∧
      (∀ j, k ≤ j →
        (update_accumulator_incremental ctx k chain).getD j default =
          chain.getD j default) ∧
      (∀ j, j ≤ k →
        ((update_accumulator_incremental ctx k chain).getD j default).board =
            (chain.getD j default).board ∧
        ((update_accumulator_incremental ctx k chain).getD j default).computed = true ∧
        reflects ctx ((update_accumulator_incremental ctx k chain).getD j default)) := by
  intro k
  induction k with
  | zero =>
    intro chain hk hcomp hrefl hdeltas
    refine ⟨rfl, fun j _ => rfl, fun j hj => ?_⟩
    have : j = 0 := Nat.le_zero.mp hj
    subst this
    exact ⟨rfl, hcomp, hrefl⟩
  | succ k ih =>
    intro chain hk hcomp hrefl hdeltas
    match chain, hk with
    | c :: rest, hk =>
      have hklen : k < rest.length := by
        simp only [List.length_cons] at hk
        omega
      have hcomp' : (rest.getD k default).computed = true := hcomp
      have hrefl' : reflects ctx (rest.getD k default) := hrefl
      have hdeltas' : validDeltas ctx rest := by
        match rest, hklen with
        | r :: rs, _ => exact hdeltas.2
      obtain ⟨ihlen, ihhigh, ihlow⟩ := ih rest hklen hcomp' hrefl' hdeltas'
      have hstep : update_accumulator_incremental ctx (k + 1) (c :: rest) =
          applyInc ctx ((update_accumulator_incremental ctx k rest).headD default) c ::
            update_accumulator_incremental ctx k rest := rfl
      have hpred0 := ihlow 0 (Nat.zero_le k)
      have hpredrec : (update_accumulator_incremental ctx k rest).headD default =
          (update_accumulator_incremental ctx k rest).getD 0 default :=
        headD_eq_getD_zero _ _
      have hdelta0 : (featsL ctx (rest.getD 0 default).board : Multiset Nat) +
          (c.addedD : Multiset Nat) =
          (featsL ctx c.board : Multiset Nat) + (c.removedD : Multiset Nat) := by
        match rest, hklen with
        | r :: rs, _ => exact hdeltas.1
      refine ⟨?_, ?_, ?_⟩
      · rw [hstep]
        simp only [List.length_cons, ihlen]
      · intro j hj
        match j, hj with
        | j + 1, hj =>
          rw [hstep]
          simp only [List.getD_cons_succ]
          exact ihhigh j (by omega)
      · intro j hj
        match j with
        | 0 =>
          rw [hstep]
          simp only [List.getD_cons_zero]
          obtain ⟨hb0, hc0, hr0⟩ := hpred0
          have hboard : ((update_accumulator_incremental ctx k rest).headD
              default).board = (rest.getD 0 default).board := by
            rw [hpredrec]
            exact hb0
          have haccrefl : ∀ lane, ((update_accumulator_incremental ctx k
              rest).headD default).accumulation lane =
              groundAcc ctx (rest.getD 0 default).board lane := by
            intro lane
            rw [hpredrec]
            rw [((hr0.1) lane), hb0]
          have hpsqtrefl : ∀ b, ((update_accumulator_incremental ctx k
              rest).headD default).psqtAccumulation b =
              groundPsqt ctx (rest.getD 0 default).board b := by
            intro b
            rw [hpredrec]
            rw [((hr0.2) b), hb0]
          refine ⟨rfl, rfl, ?_, ?_⟩
          · intro lane
            exact incStep_ground ctx hdelta0 haccrefl lane
          · intro b
            exact incPsqtStep_ground ctx hdelta0 hpsqtrefl b
        | j + 1 =>
          rw [hstep]
          simp only [List.getD_cons_succ]
          exact ihlow j (by omega)

theorem walkBudget_cons (gain : Int) (c : SRec) (l : List SRec) (i : Nat) :
    walkBudget gain (c :: l) (i + 1) = walkBudget (gain - (c.updCost + 1)) l i := by
  simp only [walkBudget, List.take_succ_cons, List.map_cons, List.sum_cons]
  ring

theorem walkBudget_one (gain : Int) (c : SRec) (l : List SRec) :
    walkBudget gain (c :: l) 1 = gain - (c.updCost + 1) := by
  simp [walkBudget]

/-- Behaviour of the backward walk: every record strictly before the stop
index was visited uncomputed with no mandatory refresh and a nonnegative
running budget, and the walk stops only at the chain start, at a computed
record, at a mandatory refresh, or when the budget just went negative. -/
theorem try_find_spec :
    ∀ (chain : List SRec) (gain : Int), chain ≠ [] →
      (try_find_computed_accumulator gain chain < chain.length) ∧
      (∀ i, i < try_find_computed_accumulator gain chain →
        ((chain.getD i default).computed = false ∧
         (chain.getD i default).reqRefresh = false ∧
         0 ≤ walkBudget gain chain (i + 1))) ∧
      (try_find_computed_accumulator gain chain + 1 = chain.length ∨
       (chain.getD (try_find_computed_accumulator gain chain) default).computed = true ∨
       (chain.getD (try_find_computed_accumulator gain chain) default).reqRefresh = true ∨
       walkBudget gain chain (try_find_computed_accumulator gain chain + 1) < 0) := by
  intro chain
  induction chain with
  | nil => intro gain h; exact absurd rfl h
  | cons c rest ih =>
    intro gain _
    match rest with
    | [] =>
      refine ⟨by simp [try_find_computed_accumulator], ?_, ?_⟩
      · intro i hi
        simp [try_find_computed_accumulator] at hi
      · left
        rfl
    | r :: rs =>
      have heq : try_find_computed_accumulator gain (c :: r :: rs) =
          if c.computed = true then 0
          else if c.reqRefresh = true ∨ gain - (c.updCost + 1) < 0 then 0
          else try_find_computed_accumulator (gain - (c.updCost + 1)) (r :: rs) + 1 :=
        rfl
      by_cases h1 : c.computed = true
      · rw [heq, if_pos h1]
        refine ⟨by simp, ?_, Or.inr (Or.inl h1)⟩
        intro i hi
        omega
      · by_cases h2 : c.reqRefresh = true ∨ gain - (c.updCost + 1) < 0
        · rw [heq, if_neg h1, if_pos h2]
          refine ⟨by simp, ?_, ?_⟩
          · intro i hi
            omega
          · rcases h2 with h2 | h2
            · exact Or.inr (Or.inr (Or.inl h2))
            · right
              right
              right
              rw [walkBudget_one]
              exact h2
        · rw [heq, if_neg h1, if_neg h2]
          push_neg at h2
          obtain ⟨hrr, hbud⟩ := h2
          obtain ⟨ihlt, ihvis, ihstop⟩ :=
            ih (gain - (c.updCost + 1)) (List.cons_ne_nil r rs)
          refine ⟨?_, ?_, ?_⟩
          · simp only [List.length_cons] at ihlt ⊢
            omega
          · intro i hi
            match i with
            | 0 =>
              refine ⟨by simpa using h1, by simpa using hrr, ?_⟩
              rw [walkBudget_one]
              omega
            | i + 1 =>
              simp only [List.getD_cons_succ]
              obtain ⟨ha, hb, hc⟩ := ihvis i (by omega)
              refine ⟨ha, hb, ?_⟩
              rw [walkBudget_cons]
              exact hc
          · rcases ihstop with hs | hs | hs | hs
            · left
              simp only [List.length_cons] at hs ⊢
              omega
            · right
              left
              simpa only [List.getD_cons_succ] using hs
            · right
              right
              left
              simpa only [List.getD_cons_succ] using hs
            · right
              right
              right
              rw [walkBudget_cons]
              exact hs

/-! ## Claim C6: the walk budget and the refresh fallback -/

/-- C6 (amended): for an uncomputed current record,
`try_find_computed_accumulator` walks the history chain backward with a
budget that starts at the refresh cost and is decremented by each visited
record's update cost plus one; every record strictly before the stop index
was visited uncomputed, without mandatory refresh and with a nonnegative
running budget, and the walk stops only at a computed record, at a
mandatory refresh, when the budget just went negative, **or at the start
of the chain (a record with no predecessor)**; the caller takes the
incremental path from the found record exactly when that record is
computed (necessarily a proper ancestor), and in every other case —
including reaching an uncomputed chain start — falls back to the cache
refresh of the current record. -/
theorem walk_budget_and_fallback (ctx : NNCtx) (gain : Int) (cur : SRec)
    (rest : List SRec) (entry : CacheEntry) (hcur : cur.computed = false) :
    (try_find_computed_accumulator gain (cur :: rest) < (cur :: rest).length) ∧
    (∀ i, i < try_find_computed_accumulator gain (cur :: rest) →
      (((cur :: rest).getD i default).computed = false ∧
       ((cur :: rest).getD i default).reqRefresh = false ∧
       0 ≤ walkBudget gain (cur :: rest) (i + 1))) ∧
    (try_find_computed_accumulator gain (cur :: rest) + 1 = (cur :: rest).length ∨
     ((cur :: rest).getD (try_find_computed_accumulator gain (cur :: rest))
       default).computed = true ∨
     ((cur :: rest).getD (try_find_computed_accumulator gain (cur :: rest))
       default).reqRefresh = true ∨
     walkBudget gain (cur :: rest)
       (try_find_computed_accumulator gain (cur :: rest) + 1) < 0) ∧
    (((cur :: rest).getD (try_find_computed_accumulator gain (cur :: rest))
        default).computed = true →
      update_accumulator ctx gain (cur :: rest) entry =
        (update_accumulator_incremental ctx
          (try_find_computed_accumulator gain (cur :: rest)) (cur :: rest), entry)) ∧
    (((cur :: rest).getD (try_find_computed_accumulator gain (cur :: rest))
        default).computed = false →
      update_accumulator ctx gain (cur :: rest) entry =
        ({ cur with
            accumulation := (update_accumulator_refresh ctx entry cur.board).2.1,
            psqtAccumulation := (update_accumulator_refresh ctx entry cur.board).2.2,
            computed := true } :: rest,
         (update_accumulator_refresh ctx entry cur.board).1)) := by
  obtain ⟨hlt, hvis, hstop⟩ :=
    try_find_spec (cur :: rest) gain (List.cons_ne_nil cur rest)
  have heq : update_accumulator ctx gain (cur :: rest) entry =
      if cur.computed = true then (cur :: rest, entry)
      else if ((cur :: rest).getD
          (try_find_computed_accumulator gain (cur :: rest)) default).computed =
            true ∧ try_find_computed_accumulator gain (cur :: rest) ≠ 0 then
        (update_accumulator_incremental ctx
          (try_find_computed_accumulator gain (cur :: rest)) (cur :: rest), entry)
      else
        ({ cur with
            accumulation := (update_accumulator_refresh ctx entry cur.board).2.1,
            psqtAccumulation := (update_accumulator_refresh ctx entry cur.board).2.2,
            computed := true } :: rest,
         (update_accumulator_refresh ctx entry cur.board).1) := rfl
  refine ⟨hlt, hvis, hstop, ?_, ?_⟩
  · intro hcomp
    have hkne : try_find_computed_accumulator gain (cur :: rest) ≠ 0 := by
      intro h0
      rw [h0] at hcomp
      simp only [List.getD_cons_zero] at hcomp
      rw [hcomp] at hcur
      cases hcur
    rw [heq, if_neg (by simp [hcur]), if_pos ⟨hcomp, hkne⟩]
  · intro hcomp
    rw [heq, if_neg (by simp [hcur]),
      if_neg (by rw [hcomp]; simp)]

/-- C6 counterexample: a single uncomputed record with no predecessor, no
mandatory refresh, cheap update cost and an ample budget of 100 — the
walk stops and the caller falls back to refresh (the cache entry gets
overwritten with the record's board snapshot) although the budget never
went negative and no visited record required a refresh, contradicting the
claim's "stops … exactly when the budget would go negative or a visited
record requires a mandatory refresh". -/
theorem walk_budget_counterexample :
    try_find_computed_accumulator 100 [rec0] = 0 ∧
    rec0.computed = false ∧
    rec0.reqRefresh = false ∧
    0 ≤ (100 : Int) - (rec0.updCost + 1) ∧
    (update_accumulator ctx0 100 [rec0] entry0).2.byColorBB .WHITE = 1 ∧
    entry0.byColorBB .WHITE = 0 := by
  refine ⟨rfl, rfl, rfl, by norm_num [rec0], ?_, rfl⟩
  rfl

/-- Witness for the amended C6 on the same single-record chain. -/
theorem walk_budget_and_fallback_witness :
    rec0.computed = false ∧
    ((try_find_computed_accumulator 100 [rec0] < ([rec0] : List SRec).length) ∧
    (∀ i, i < try_find_computed_accumulator 100 [rec0] →
      ((([rec0] : List SRec).getD i default).computed = false ∧
       (([rec0] : List SRec).getD i default).reqRefresh = false ∧
       0 ≤ walkBudget 100 [rec0] (i + 1))) ∧
    (try_find_computed_accumulator 100 [rec0] + 1 = ([rec0] : List SRec).length ∨
     (([rec0] : List SRec).getD (try_find_computed_accumulator 100 [rec0])
       default).computed = true ∨
     (([rec0] : List SRec).getD (try_find_computed_accumulator 100 [rec0])
       default).reqRefresh = true ∨
     walkBudget 100 [rec0] (try_find_computed_accumulator 100 [rec0] + 1) < 0) ∧
    ((([rec0] : List SRec).getD (try_find_computed_accumulator 100 [rec0])
        default).computed = true →
      update_accumulator ctx0 100 [rec0] entry0 =
        (update_accumulator_incremental ctx0
          (try_find_computed_accumulator 100 [rec0]) [rec0], entry0)) ∧
    ((([rec0] : List SRec).getD (try_find_computed_accumulator 100 [rec0])
        default).computed = false →
      update_accumulator ctx0 100 [rec0] entry0 =
        ({ rec0 with
            accumulation := (update_accumulator_refresh ctx0 entry0 rec0.board).2.1,
            psqtAccumulation :=
              (update_accumulator_refresh ctx0 entry0 rec0.board).2.2,
            computed := true } :: [],
         (update_accumulator_refresh ctx0 entry0 rec0.board).1))) :=
  ⟨rfl, walk_budget_and_fallback ctx0 100 rec0 [] entry0 rfl⟩

/-! ## Claim C8: the computed-flag state machine -/

theorem chain_getD_mem (chain : List SRec) (i : Nat) (hi : i < chain.length) :
    chain.getD i default ∈ chain := by
  rw [List.getD_eq_getElem chain default hi]
  exact List.getElem_mem hi

/-- C8: the computed flag transitions from UNCOMPUTED to COMPUTED exactly
once — `update_accumulator` is a no-op when the current record is already
computed, otherwise it establishes `computed = true` on the current record
via the incremental or the refresh path while leaving every
already-computed record untouched; and under the chain invariant (with a
valid cache entry and exact per-move deltas) the flag is true only when
the record's accumulator reflects exactly the feature set implied by its
board state, an invariant the call preserves. -/
theorem computed_flag_invariant (ctx : NNCtx) (gain : Int) (cur : SRec)
    (rest : List SRec) (entry : CacheEntry) (bd0 : XBoard)
    (hwf : WFX cur.board)
    (hinv : chainInv ctx (cur :: rest))
    (hent : entryReflects ctx entry bd0)
    (hdeltas : validDeltas ctx (cur :: rest)) :
    (cur.computed = true →
      update_accumulator ctx gain (cur :: rest) entry = (cur :: rest, entry)) ∧
    (((update_accumulator ctx gain (cur :: rest) entry).1.getD 0
        default).computed = true) ∧
    (∀ i, ((cur :: rest).getD i default).computed = true →
      (update_accumulator ctx gain (cur :: rest) entry).1.getD i default =
        (cur :: rest).getD i default) ∧
    chainInv ctx (update_accumulator ctx gain (cur :: rest) entry).1 := by
  by_cases hc : cur.computed = true
  · have heq : update_accumulator ctx gain (cur :: rest) entry =
        (cur :: rest, entry) := by
      show (if cur.computed then (cur :: rest, entry) else _) = _
      rw [if_pos hc]
    refine ⟨fun _ => heq, ?_, fun i _ => by rw [heq], ?_⟩
    · rw [heq]
      exact hc
    · rw [heq]
      exact hinv
  · have hcf : cur.computed = false := by
      revert hc; cases cur.computed <;> simp
    obtain ⟨hlt, hvis, hstop⟩ :=
      try_find_spec (cur :: rest) gain (List.cons_ne_nil cur rest)
    by_cases hcomp : ((cur :: rest).getD
        (try_find_computed_accumulator gain (cur :: rest)) default).computed = true
    · have hkne : try_find_computed_accumulator gain (cur :: rest) ≠ 0 := by
        intro h0
        rw [h0] at hcomp
        simp only [List.getD_cons_zero] at hcomp
        rw [hcomp] at hcf
        cases hcf
      have heq : update_accumulator ctx gain (cur :: rest) entry =
          (update_accumulator_incremental ctx
            (try_find_computed_accumulator gain (cur :: rest)) (cur :: rest),
           entry) := by
        show (if cur.computed then (cur :: rest, entry) else
          if ((cur :: rest).getD
              (try_find_computed_accumulator gain (cur :: rest)) default).computed =
                true ∧ try_find_computed_accumulator gain (cur :: rest) ≠ 0 then _
          else _) = _
        rw [if_neg (by simp [hcf]), if_pos ⟨hcomp, hkne⟩]
      have hreflk : reflects ctx ((cur :: rest).getD
          (try_find_computed_accumulator gain (cur :: rest)) default) :=
        hinv _ (chain_getD_mem _ _ hlt) hcomp
      obtain ⟨hlen, hhigh, hlow⟩ := update_accumulator_incremental_spec ctx
        (try_find_computed_accumulator gain (cur :: rest)) (cur :: rest)
        hlt hcomp hreflk hdeltas
      refine ⟨fun h => absurd h hc, ?_, ?_, ?_⟩
      · rw [heq]
        exact (hlow 0 (Nat.zero_le _)).2.1
      · intro i hci
        rcases Nat.lt_or_ge i (try_find_computed_accumulator gain (cur :: rest))
          with hik | hik
        · exact absurd hci (by rw [(hvis i hik).1]; simp)
        · rw [heq]
          exact hhigh i hik
      · rw [heq]
        intro r hr hcr
        obtain ⟨i, hi, hri⟩ := List.mem_iff_getElem.mp hr
        have hgd : (update_accumulator_incremental ctx
            (try_find_computed_accumulator gain (cur :: rest))
            (cur :: rest)).getD i default = r := by
          rw [List.getD_eq_getElem _ default hi, hri]
        rcases Nat.le_total i (try_find_computed_accumulator gain (cur :: rest))
          with hik | hik
        · rw [← hgd]
          exact (hlow i hik).2.2
        · have hunch := hhigh i hik
          rw [← hgd, hunch]
          have hilen : i < (cur :: rest).length := by rw [← hlen]; exact hi
          exact hinv _ (chain_getD_mem _ _ hilen)
            (by rw [← hunch, hgd]; exact hcr)
    · have heq : update_accumulator ctx gain (cur :: rest) entry =
          ({ cur with
              accumulation := (update_accumulator_refresh ctx entry cur.board).2.1,
              psqtAccumulation :=
                (update_accumulator_refresh ctx entry cur.board).2.2,
              computed := true } :: rest,
           (update_accumulator_refresh ctx entry cur.board).1) := by
        show (if cur.computed then (cur :: rest, entry) else
          if ((cur :: rest).getD
              (try_find_computed_accumulator gain (cur :: rest)) default).computed =
                true ∧ try_find_computed_accumulator gain (cur :: rest) ≠ 0 then _
          else _) = _
        rw [if_neg (by simp [hcf]), if_neg (fun hand => hcomp hand.1)]
      obtain ⟨hacc, hpsqt, _⟩ := refresh_ground ctx hent hwf
      refine ⟨fun h => absurd h hc, ?_, ?_, ?_⟩
      · rw [heq]
        rfl
      · intro i hci
        match i with
        | 0 => exact absurd hci (by simp only [List.getD_cons_zero]; rw [hcf]; simp)
        | i + 1 =>
          rw [heq]
          simp only [List.getD_cons_succ]
      · rw [heq]
        intro r hr hcr
        rcases List.mem_cons.mp hr with hr0 | hrrest
        · subst hr0
          exact ⟨hacc, hpsqt⟩
        · exact hinv r (List.mem_cons_of_mem cur hrrest) hcr

/-- Witness for C8 on a two-record chain: computed ancestor `wRec0`,
uncomputed current record `wRec1`, valid cache entry `wEntry`. -/
theorem computed_flag_invariant_witness :
    WFX wRec1.board ∧
    (((update_accumulator wCtx 100 [wRec1, wRec0] wEntry).1.getD 0
        default).computed = true) ∧
    chainInv wCtx (update_accumulator wCtx 100 [wRec1, wRec0] wEntry).1 :=
  have h := computed_flag_invariant wCtx 100 wRec1 [wRec0] wEntry wBd0
    (by constructor <;> decide)
    (by
      intro r hr hcr
      rcases List.mem_cons.mp hr with h1 | h1
      · subst h1; exact absurd hcr (by decide)
      · rcases List.mem_cons.mp h1 with h2 | h2
        · subst h2; exact ⟨fun lane => rfl, fun b => rfl⟩
        · cases h2)
    ⟨by constructor <;> decide, fun c => rfl, fun pt => rfl, fun lane => rfl,
      fun b => rfl⟩
    ⟨by simp [wRec1, wRec0], trivial⟩
  ⟨by constructor <;> decide, h.2.1, h.2.2.2⟩

/-! ## Claim C1: incremental updates agree with refresh at every step -/

/-- C1: starting from a computed, correct ancestor `k` plies back and
walking forward with exact per-move feature deltas, the accumulator and
PSQT accumulator the incremental path writes into each record along the
way (the final position included) are value-for-value identical to what
the refresh path would compute for that record's board from any valid
cache entry — forcing a refresh at every step yields the same accumulator
as the incremental chain. -/
theorem incremental_refresh_equivalence (ctx : NNCtx) (k : Nat)
    (chain : List SRec) (hk : k < chain.length)
    (hcomp : (chain.getD k default).computed = true)
    (hrefl : reflects ctx (chain.getD k default))
    (hdeltas : validDeltas ctx chain) :
    ∀ j, j ≤ k → ∀ (entry : CacheEntry) (bd0 : XBoard),
      entryReflects ctx entry bd0 →
      WFX ((chain.getD j default).board) →
      (∀ lane,
        ((update_accumulator_incremental ctx k chain).getD j
            default).accumulation lane =
          (update_accumulator_refresh ctx entry
            ((chain.getD j default).board)).2.1 lane) ∧
      (∀ b,
        ((update_accumulator_incremental ctx k chain).getD j
            default).psqtAccumulation b =
          (update_accumulator_refresh ctx entry
            ((chain.getD j default).board)).2.2 b) := by
  intro j hj entry bd0 hent hwfj
  obtain ⟨hlen, hhigh, hlow⟩ :=
    update_accumulator_incremental_spec ctx k chain hk hcomp hrefl hdeltas
  obtain ⟨hboard, hcj, hacc, hpsqt⟩ := hlow j hj
  obtain ⟨racc, rpsqt, _⟩ := refresh_ground ctx hent hwfj
  constructor
  · intro lane
    rw [hacc lane, hboard, racc lane]
  · intro b
    rw [hpsqt b, hboard, rpsqt b]

/-- Witness for C1 on the two-record chain: ancestor `wRec0` computed,
current record `wRec1` one (delta-free) move later; the incremental value
written into the current record equals the refresh value for its board
from the valid entry `wEntry`. -/
theorem incremental_refresh_equivalence_witness :
    (1 < ([wRec1, wRec0] : List SRec).length) ∧
    (∀ lane,
      ((update_accumulator_incremental wCtx 1 [wRec1, wRec0]).getD 0
          default).accumulation lane =
        (update_accumulator_refresh wCtx wEntry
          ((([wRec1, wRec0] : List SRec).getD 0 default).board)).2.1 lane) ∧
    (∀ b,
      ((update_accumulator_incremental wCtx 1 [wRec1, wRec0]).getD 0
          default).psqtAccumulation b =
        (update_accumulator_refresh wCtx wEntry
          ((([wRec1, wRec0] : List SRec).getD 0 default).board)).2.2 b) :=
  have h := incremental_refresh_equivalence wCtx 1 [wRec1, wRec0]
    (by decide) (by decide) ⟨fun lane => rfl, fun b => rfl⟩
    ⟨by simp [wRec1, wRec0], trivial⟩ 0 (Nat.zero_le 1) wEntry wBd0
    ⟨by constructor <;> decide, fun c => rfl, fun pt => rfl, fun lane => rfl,
      fun b => rfl⟩
    (by constructor <;> decide)
  ⟨by decide, h.1, h.2⟩

end Pikafish
